import Mathlib

/-!
# Verification of the catseq-rust algebraic compilation core

Shallow embedding of the arena-backed morphism algebra and its two
compilers (`src/arena.rs`, `src/compiler.rs`, `src/incremental.rs`),
the single-channel path builder (`src/path.rs`) and the program arena
(`src/program/arena.rs`, `src/program/values.rs`, `src/program/nodes.rs`).

Machine integers (`u16`, `u32`, `u64`) are modelled as `Nat`; by the
spec's contract all arithmetic stays far below the overflow boundary,
so no wrap-around is modelled.  Byte blobs are `List Nat`.  Mutating
Rust methods (`&mut self`) are embedded as state-passing functions;
fallible methods return `Except String`.

All recursive traversals over arena indices use a structural fuel
parameter (fuel `i + 1` suffices because every composite node only
refers to strictly smaller indices); fuel-irrelevance lemmas recover
the intended recursion equations, and the definitions stay executable
so that concrete witnesses evaluate by `decide`.
-/

namespace CatSeq

/-! ## Definitions: the shallow embedding of the source -/

/-- Payload of an atomic operation (`AtomicPayload` in `arena.rs`):
an opaque opcode plus an opaque byte blob. -/
structure AtomicPayload where
  opcode : Nat
  data : List Nat
deriving DecidableEq, Repr

/-- Morphism node data (`MorphismData` in `arena.rs`).  Composite
nodes store their two child handles plus precomputed duration and
channel list. -/
inductive MorphismData where
  | atomic (channel_id : Nat) (duration : Nat) (payload : AtomicPayload)
  | sequential (lhs rhs : Nat) (duration : Nat) (channels : List Nat)
  | parallel (lhs rhs : Nat) (duration : Nat) (channels : List Nat)
deriving DecidableEq, Repr

/-- `MorphismData::duration` — the precomputed O(1) duration field. -/
def MorphismData.duration : MorphismData → Nat
  | .atomic _ d _ => d
  | .sequential _ _ d _ => d
  | .parallel _ _ d _ => d

/-- `MorphismData::channels_vec` — the channel list of a node; for an
atomic node it is the one-element list of its channel id. -/
def MorphismData.channels_vec : MorphismData → List Nat
  | .atomic ch _ _ => [ch]
  | .sequential _ _ _ cs => cs
  | .parallel _ _ _ cs => cs

/-- The arena (`ArenaContext` in `arena.rs`): an append-only vector of
nodes, handles are indices into it. -/
structure ArenaContext where
  nodes : List MorphismData
deriving DecidableEq, Repr

/-- Node lookup.  Out-of-range handles are a contract violation in the
source (Rust indexing panics); the embedding totalises the accessor
with a harmless default that no theorem relies on. -/
def ArenaContext.nodeAt (a : ArenaContext) (i : Nat) : MorphismData :=
  (a.nodes.get? i).getD (.atomic 0 0 ⟨0, []⟩)

/-- `get_duration` / `MorphismData::duration()` at a handle. -/
def ArenaContext.durationAt (a : ArenaContext) (i : Nat) : Nat :=
  (a.nodeAt i).duration

/-- `get_channels` / the channel list at a handle. -/
def ArenaContext.channelsAt (a : ArenaContext) (i : Nat) : List Nat :=
  (a.nodeAt i).channels_vec

/-- `ArenaContext::atomic` — append an atomic node, return new state
and the fresh handle. -/
def ArenaContext.atomic (a : ArenaContext) (channel_id duration opcode : Nat)
    (data : List Nat) : ArenaContext × Nat :=
  (⟨a.nodes ++ [.atomic channel_id duration ⟨opcode, data⟩]⟩, a.nodes.length)

/-- Adjacent-duplicate removal (`Vec::dedup` in Rust): removes
consecutive equal elements, keeping the first of each run. -/
def dedupAdj : List Nat → List Nat
  | [] => []
  | [x] => [x]
  | x :: y :: rest => if x = y then dedupAdj (y :: rest) else x :: dedupAdj (y :: rest)

/-- Sorting of channel lists.  Rust uses `sort_unstable` on `u32`;
on natural numbers every sorting algorithm yields the same list, so we
use insertion sort. -/
def sortChannels (l : List Nat) : List Nat :=
  l.insertionSort (· ≤ ·)

/-- `ArenaContext::sequential` — duration is added, channels are the
concatenation, sorted, then deduplicated by adjacent-equal scan. -/
def ArenaContext.sequential (a : ArenaContext) (lhs rhs : Nat) : ArenaContext × Nat :=
  let duration := (a.nodeAt lhs).duration + (a.nodeAt rhs).duration
  let channels := dedupAdj (sortChannels ((a.nodeAt lhs).channels_vec ++ (a.nodeAt rhs).channels_vec))
  (⟨a.nodes ++ [.sequential lhs rhs duration channels]⟩, a.nodes.length)

/-- Fuel-driven core of `has_intersection` (two-pointer scan over two
sorted slices, `arena.rs`).  Fuel `a.length + b.length` always
suffices. -/
def hiAux : Nat → List Nat → List Nat → Bool
  | 0, _, _ => false
  | _ + 1, [], _ => false
  | _ + 1, _ :: _, [] => false
  | fuel + 1, x :: xs, y :: ys =>
    if x = y then true
    else if x < y then hiAux fuel xs (y :: ys)
    else hiAux fuel (x :: xs) ys

/-- `has_intersection` in `arena.rs`: two-pointer intersection test on
two sorted slices. -/
def has_intersection (a b : List Nat) : Bool :=
  hiAux (a.length + b.length) a b

/-- `ArenaContext::parallel` — rejects overlapping channel sets with a
descriptive error (detection happens before any node is appended);
otherwise duration is the max and channels are the sorted union
(no dedup pass, the inputs being disjoint). -/
def ArenaContext.parallel (a : ArenaContext) (lhs rhs : Nat) :
    ArenaContext × Except String Nat :=
  if has_intersection (a.nodeAt lhs).channels_vec (a.nodeAt rhs).channels_vec then
    (a, .error "Parallel composition requires disjoint channels")
  else
    let duration := max (a.nodeAt lhs).duration (a.nodeAt rhs).duration
    let channels := sortChannels ((a.nodeAt lhs).channels_vec ++ (a.nodeAt rhs).channels_vec)
    (⟨a.nodes ++ [.parallel lhs rhs duration channels]⟩, .ok a.nodes.length)

/-- Fuel-driven core of `ArenaContext::leaf_count` (the explicit-stack
walker counts exactly one per reachable atomic occurrence). -/
def leafCountAux (a : ArenaContext) : Nat → Nat → Nat
  | 0, _ => 0
  | fuel + 1, i =>
    match a.nodes.get? i with
    | none => 0
    | some (.atomic _ _ _) => 1
    | some (.sequential l r _ _) =>
      if l < i ∧ r < i then leafCountAux a fuel l + leafCountAux a fuel r else 0
    | some (.parallel l r _ _) =>
      if l < i ∧ r < i then leafCountAux a fuel l + leafCountAux a fuel r else 0

/-- `ArenaContext::leaf_count`. -/
def ArenaContext.leaf_count (a : ArenaContext) (root : Nat) : Nat :=
  leafCountAux a (root + 1) root

/-- Fuel-driven core of `ArenaContext::max_depth` (root counts as
depth 1; each composite adds one level). -/
def maxDepthAux (a : ArenaContext) : Nat → Nat → Nat
  | 0, _ => 1
  | fuel + 1, i =>
    match a.nodes.get? i with
    | none => 1
    | some (.atomic _ _ _) => 1
    | some (.sequential l r _ _) =>
      if l < i ∧ r < i then 1 + max (maxDepthAux a fuel l) (maxDepthAux a fuel r) else 1
    | some (.parallel l r _ _) =>
      if l < i ∧ r < i then 1 + max (maxDepthAux a fuel l) (maxDepthAux a fuel r) else 1

/-- `ArenaContext::max_depth`. -/
def ArenaContext.max_depth (a : ArenaContext) (root : Nat) : Nat :=
  maxDepthAux a (root + 1) root

/-- A compiled event (`FlatEvent` in `compiler.rs`). -/
structure FlatEvent where
  time : Nat
  channel_id : Nat
  opcode : Nat
  data : List Nat
deriving DecidableEq, Repr

/-- Fuel-driven depth-first traversal underlying the flat compiler's
stack machine (`compile` in `compiler.rs`): the LIFO stack with the
right child pushed first produces exactly the left-to-right recursive
traversal; a sequential node shifts its right child by the left
child's duration, a parallel node starts both children together. -/
def dfsAux (a : ArenaContext) : Nat → Nat → Nat → List FlatEvent
  | 0, _, _ => []
  | fuel + 1, i, t =>
    match a.nodes.get? i with
    | none => []
    | some (.atomic ch _ p) => [⟨t, ch, p.opcode, p.data⟩]
    | some (.sequential l r _ _) =>
      if l < i ∧ r < i then
        dfsAux a fuel l t ++ dfsAux a fuel r (t + a.durationAt l)
      else []
    | some (.parallel l r _ _) =>
      if l < i ∧ r < i then dfsAux a fuel l t ++ dfsAux a fuel r t else []

/-- Events of the flat compiler's traversal phase, in traversal order,
starting the subtree at `i` at absolute time `t`. -/
def dfsEvents (a : ArenaContext) (i t : Nat) : List FlatEvent :=
  dfsAux a (i + 1) i t

/-- Time comparison used by the final `sort_by_key(|e| e.time)`. -/
def timeLE (e₁ e₂ : FlatEvent) : Prop := e₁.time ≤ e₂.time

instance : DecidableRel timeLE := fun e₁ e₂ => Nat.decLe e₁.time e₂.time

instance : IsTotal FlatEvent timeLE := ⟨fun e₁ e₂ => Nat.le_total e₁.time e₂.time⟩

instance : IsTrans FlatEvent timeLE := ⟨fun _ _ _ h₁ h₂ => Nat.le_trans h₁ h₂⟩

/-- The flat compiler `compile` of `compiler.rs`: depth-first
traversal with absolute start times, then a stable sort by time
(Rust's `sort_by_key` is stable; insertion sort is its stable model). -/
def compile (a : ArenaContext) (root : Nat) : List FlatEvent :=
  (dfsEvents a root 0).insertionSort timeLE

/-- Fuel-driven core of the standard two-pointer merge (step 3 of
`merge_sorted_events` in `incremental.rs`): `a`-first on time ties,
remainders appended.  Fuel `a.length + b.length` always suffices. -/
def mergeAux : Nat → List FlatEvent → List FlatEvent → List FlatEvent
  | 0, a, b => a ++ b
  | _ + 1, [], b => b
  | _ + 1, x :: xs, [] => x :: xs
  | fuel + 1, x :: xs, y :: ys =>
    if x.time ≤ y.time then x :: mergeAux fuel xs (y :: ys)
    else y :: mergeAux fuel (x :: xs) ys

/-- The standard two-pointer merge with `a`-first tie-breaking
(the fallback path of `merge_sorted_events`). -/
def mergeLoop (a b : List FlatEvent) : List FlatEvent :=
  mergeAux (a.length + b.length) a b

/-- `merge_sorted_events` in `incremental.rs`: empty fast paths, two
block-copy fast paths for time-disjoint ranges (checked with `≤` in
this order), then the standard two-pointer merge. -/
def merge_sorted_events (a b : List FlatEvent) : List FlatEvent :=
  match a, b with
  | [], b => b
  | a, [] => a
  | x :: xs, y :: ys =>
    if (xs.getLastD x).time ≤ y.time then (x :: xs) ++ (y :: ys)
    else if (ys.getLastD y).time ≤ x.time then (y :: ys) ++ (x :: xs)
    else mergeLoop (x :: xs) (y :: ys)

/-- The time shift applied by the incremental compiler when placing a
cached right child after its left sibling. -/
def shiftEvent (d : Nat) (e : FlatEvent) : FlatEvent :=
  { e with time := e.time + d }

/-- Fuel-driven pure denotation of `IncrementalCompiler::compile_node`
(`incremental.rs`): the event list of a subtree in local time
(relative to the subtree's own zero).  An atomic is a single event at
`t = 0`; a sequential node concatenates the left events with the right
events shifted by the left duration; a parallel node merges the two
sorted lists via `merge_sorted_events`. -/
def incAux (a : ArenaContext) : Nat → Nat → List FlatEvent
  | 0, _ => []
  | fuel + 1, i =>
    match a.nodes.get? i with
    | none => []
    | some (.atomic ch _ p) => [⟨0, ch, p.opcode, p.data⟩]
    | some (.sequential l r _ _) =>
      if l < i ∧ r < i then
        incAux a fuel l ++ (incAux a fuel r).map (shiftEvent (a.durationAt l))
      else []
    | some (.parallel l r _ _) =>
      if l < i ∧ r < i then merge_sorted_events (incAux a fuel l) (incAux a fuel r) else []

/-- Local-time event list of a node as computed (and cached) by the
incremental compiler. -/
def incNode (a : ArenaContext) (i : Nat) : List FlatEvent :=
  incAux a (i + 1) i

/-- The memoization cache (`HashMap<NodeId, Arc<Vec<FlatEvent>>>`),
modelled as an association list. -/
abbrev Cache := List (Nat × List FlatEvent)

/-- Cache lookup. -/
def cacheLookup (c : Cache) (i : Nat) : Option (List FlatEvent) :=
  match c with
  | [] => none
  | (k, v) :: rest => if k = i then some v else cacheLookup rest i

/-- Fuel-driven embedding of the stateful
`IncrementalCompiler::compile_node`: on a cache hit the cached list is
returned unchanged; on a miss the node is compiled (recursing through
the children, threading the cache) and the result is stored. -/
def compileNodeAux (a : ArenaContext) : Nat → Nat → Cache → List FlatEvent × Cache
  | 0, _, c => ([], c)
  | fuel + 1, i, c =>
    match cacheLookup c i with
    | some v => (v, c)
    | none =>
      let (events, c') :=
        match a.nodes.get? i with
        | none => ([], c)
        | some (.atomic ch _ p) => ([⟨0, ch, p.opcode, p.data⟩], c)
        | some (.sequential l r _ _) =>
          if l < i ∧ r < i then
            let (le, c₁) := compileNodeAux a fuel l c
            let (re, c₂) := compileNodeAux a fuel r c₁
            (le ++ re.map (shiftEvent (a.durationAt l)), c₂)
          else ([], c)
        | some (.parallel l r _ _) =>
          if l < i ∧ r < i then
            let (le, c₁) := compileNodeAux a fuel l c
            let (re, c₂) := compileNodeAux a fuel r c₁
            (merge_sorted_events le re, c₂)
          else ([], c)
      (events, (i, events) :: c')

/-- `IncrementalCompiler::compile_node` with the cache threaded
explicitly. -/
def compile_node (a : ArenaContext) (i : Nat) (c : Cache) : List FlatEvent × Cache :=
  compileNodeAux a (i + 1) i c

/-- The public `IncrementalCompiler::compile`: the root's local zero
is the absolute zero, so the root's cached list is the answer
(`Arc::try_unwrap` only avoids a copy). -/
def incCompile (a : ArenaContext) (root : Nat) (c : Cache) : List FlatEvent × Cache :=
  compile_node a root c

/-- The arenas reachable through the public constructors: starting
from the empty arena, any sequence of `atomic`, `sequential` (with
valid handles) and `parallel` (with valid handles; the error path
leaves the arena unchanged, which `(… ).1` captures). -/
inductive Built : ArenaContext → Prop
  | nil : Built ⟨[]⟩
  | atomic {a : ArenaContext} (ch dur op : Nat) (data : List Nat) :
      Built a → Built (a.atomic ch dur op data).1
  | sequential {a : ArenaContext} {l r : Nat} :
      Built a → l < a.nodes.length → r < a.nodes.length → Built (a.sequential l r).1
  | parallel {a : ArenaContext} {l r : Nat} :
      Built a → l < a.nodes.length → r < a.nodes.length → Built (a.parallel l r).1

/-- Well-formedness of a single node: the precomputed metadata of a
composite node is exactly what the constructor computed from its
(strictly earlier) children, and a parallel node passed the
disjointness check. -/
def NodeOK (a : ArenaContext) (i : Nat) : Prop :=
  (∀ l r dur cs, a.nodes.get? i = some (.sequential l r dur cs) →
      l < i ∧ r < i ∧ dur = a.durationAt l + a.durationAt r ∧
      cs = dedupAdj (sortChannels (a.channelsAt l ++ a.channelsAt r))) ∧
  (∀ l r dur cs, a.nodes.get? i = some (.parallel l r dur cs) →
      l < i ∧ r < i ∧ dur = max (a.durationAt l) (a.durationAt r) ∧
      cs = sortChannels (a.channelsAt l ++ a.channelsAt r) ∧
      has_intersection (a.channelsAt l) (a.channelsAt r) = false)

/-- The arena-wide invariant maintained by construction. -/
def ArenaInv (a : ArenaContext) : Prop := ∀ i, NodeOK a i

/-- The set of channel ids of the atomic leaves reachable from a node:
the reference semantics that the precomputed channel lists realise. -/
def leafChannelsAux (a : ArenaContext) : Nat → Nat → Finset Nat
  | 0, _ => ∅
  | fuel + 1, i =>
    match a.nodes.get? i with
    | none => ∅
    | some (.atomic ch _ _) => {ch}
    | some (.sequential l r _ _) =>
      if l < i ∧ r < i then leafChannelsAux a fuel l ∪ leafChannelsAux a fuel r else ∅
    | some (.parallel l r _ _) =>
      if l < i ∧ r < i then leafChannelsAux a fuel l ∪ leafChannelsAux a fuel r else ∅

/-- Leaf-channel set at a handle. -/
def leafChannels (a : ArenaContext) (i : Nat) : Finset Nat :=
  leafChannelsAux a (i + 1) i

/-- Does every atomic leaf reachable from the node have a strictly
positive duration?  (The spec's strict time bound needs this.) -/
def allLeavesPosAux (a : ArenaContext) : Nat → Nat → Bool
  | 0, _ => true
  | fuel + 1, i =>
    match a.nodes.get? i with
    | none => true
    | some (.atomic _ dur _) => decide (0 < dur)
    | some (.sequential l r _ _) =>
      if l < i ∧ r < i then allLeavesPosAux a fuel l && allLeavesPosAux a fuel r else true
    | some (.parallel l r _ _) =>
      if l < i ∧ r < i then allLeavesPosAux a fuel l && allLeavesPosAux a fuel r else true

/-- All reachable leaf durations are positive. -/
def allLeavesPos (a : ArenaContext) (i : Nat) : Bool :=
  allLeavesPosAux a (i + 1) i

/-- The cache only ever holds a node's true local-time event list. -/
def CacheOK (a : ArenaContext) (c : Cache) : Prop :=
  ∀ p ∈ c, p.2 = incNode a p.1

/-- A five-node arena: `parallel (sequential a₁ a₂) c` with positive
durations.  Node 2 compiles to local events at times 0 and 5, node 3
to a single event at time 0, which drives the merge into its
`B`-before-`A` block-copy path with a boundary tie at time 0. -/
def ceArena0 : ArenaContext := (ArenaContext.atomic ⟨[]⟩ 0 5 1 []).1

def ceArena1 : ArenaContext := (ceArena0.atomic 0 5 2 []).1

def ceArena2 : ArenaContext := (ceArena1.sequential 0 1).1

def ceArena3 : ArenaContext := (ceArena2.atomic 1 7 3 []).1

def ceArena : ArenaContext := (ceArena3.parallel 2 3).1

/-- The residual case of the merge fast paths: both inputs nonempty,
the `A`-before-`B` fast path fails (`B` starts before `A` ends), and
the `B`-before-`A` fast path fires on an exact boundary tie
(`B` ends exactly when `A` starts). -/
def mergeBoundaryTie (A B : List FlatEvent) : Bool :=
  match A, B with
  | x :: xs, y :: ys =>
    decide (y.time < (xs.getLastD x).time) && decide ((ys.getLastD y).time = x.time)
  | _, _ => false

/-- The one-node arena holding a single zero-duration atomic. -/
def zeroArena : ArenaContext := (ArenaContext.atomic ⟨[]⟩ 0 0 9 []).1

/-- A single step of a `MorphismPath` (`Step` in `path.rs`). -/
structure Step where
  duration : Nat
  opcode : Nat
  payload : List Nat
deriving DecidableEq, Repr

/-- `MorphismPath`: the single-channel linear instruction buffer. -/
structure MorphismPath where
  channel_id : Nat
  steps : List Step
  total_duration : Nat
deriving DecidableEq, Repr

/-- `MorphismPath::new`. -/
def MorphismPath.new (channel_id : Nat) : MorphismPath :=
  ⟨channel_id, [], 0⟩

/-- `MorphismPath::append` — O(1) push, total grows by the step
duration. -/
def MorphismPath.push (p : MorphismPath) (duration opcode : Nat)
    (payload : List Nat) : MorphismPath :=
  { p with steps := p.steps ++ [⟨duration, opcode, payload⟩],
           total_duration := p.total_duration + duration }

/-- `MorphismPath::extend` — requires matching channel ids; on success
appends the other path's step records by slice copy (payload blobs
stay under shared ownership in the source; at the value level the step
list is the concatenation) and adds the other path's total.  The
`&mut self` mutation is embedded as returning the new state. -/
def MorphismPath.extend (self other : MorphismPath) :
    MorphismPath × Except String Unit :=
  if self.channel_id ≠ other.channel_id then
    (self, .error ("Channel mismatch: " ++ toString self.channel_id ++ " vs "
      ++ toString other.channel_id))
  else
    ({ self with steps := self.steps ++ other.steps,
                 total_duration := self.total_duration + other.total_duration }, .ok ())

/-- Concrete paths for the C8 witness. -/
def pathA : MorphismPath := ((MorphismPath.new 0).push 5 1 [1]).push 3 2 []

def pathB : MorphismPath := (MorphismPath.new 0).push 7 4 [9]

def pathC : MorphismPath := (MorphismPath.new 1).push 2 5 []

/-- Variable type hints (`TypeHint` in `program/values.rs`). -/
inductive TypeHint where
  | int32
  | int64
  | float32
  | float64
  | bool
deriving DecidableEq, Repr

/-- `TypeHint::from_str`. -/
def TypeHint.from_str : String → Option TypeHint
  | "int32" => some .int32
  | "i32" => some .int32
  | "int64" => some .int64
  | "i64" => some .int64
  | "float32" => some .float32
  | "f32" => some .float32
  | "float64" => some .float64
  | "f64" => some .float64
  | "bool" => some .bool
  | _ => none

/-- Arithmetic operators (`AluOp` in `program/nodes.rs`). -/
inductive AluOp where
  | add | sub | mul | div | mod | bitAnd | bitOr | bitXor | shl | shr
deriving DecidableEq, Repr

/-- Comparison operators (`CmpOp` in `program/nodes.rs`). -/
inductive CmpOp where
  | eq | ne | lt | le | gt | ge
deriving DecidableEq, Repr

/-- Unary operators (`UnaryOp` in `program/values.rs`). -/
inductive UnaryOp where
  | neg | not | bitNot
deriving DecidableEq, Repr

/-- Logical operators (`LogicalOp` in `program/values.rs`). -/
inductive LogicalOp where
  | and | or | not
deriving DecidableEq, Repr

/-- `ValueData` in `program/values.rs`.  A float literal stores the
IEEE-754 bit pattern of the `f64` in the unified 64-bit field (the
source converts via `to_bits`); the embedding keeps those bits opaque.
`var` embeds the source's `Variable` variant (`variable` is a Lean
keyword). -/
inductive ValueData where
  | literal (value : Int) (is_float : Bool)
  | var (name : String) (type_hint : TypeHint)
  | binaryExpr (lhs : Nat) (op : AluOp) (rhs : Nat)
  | unaryExpr (op : UnaryOp) (operand : Nat)
  | condition (lhs : Nat) (op : CmpOp) (rhs : Nat)
  | logicalExpr (lhs : Nat) (op : LogicalOp) (rhs : Option Nat)
deriving DecidableEq, Repr

/-- `ValueData::int`. -/
def ValueData.int (value : Int) : ValueData := .literal value false

/-- `ValueData::float` applied to an already-bit-cast value
(the source stores `value.to_bits() as i64`). -/
def ValueData.float (bits : Int) : ValueData := .literal bits true

/-- `ValueData::as_int` — only non-float literals. -/
def ValueData.as_int : ValueData → Option Int
  | .literal v false => some v
  | _ => none

/-- `ValueData::as_float` — only float literals; the source
reinterprets the bits via `f64::from_bits` (a bijection on bit
patterns), the embedding returns the bits. -/
def ValueData.as_float : ValueData → Option Int
  | .literal v true => some v
  | _ => none

/-- `ValueData::is_literal`. -/
def ValueData.is_literal : ValueData → Bool
  | .literal _ _ => true
  | _ => false

/-- `ValueData::is_variable`. -/
def ValueData.is_variable : ValueData → Bool
  | .var _ _ => true
  | _ => false

/-- `NodeData` in `program/nodes.rs`; hash maps are modelled as
association lists.  `loopN`/`matchN`/`set` embed `Loop`/`Match`/`Set`
(renamed around Lean keywords). -/
inductive NodeData where
  | lift (morphism_ref : Nat) (params : List (String × Nat))
  | delay (duration : Nat) (max_hint : Option Nat)
  | set (target : Nat) (value : Nat)
  | chain (left : Nat) (right : Nat)
  | loopN (count : Nat) (body : Nat)
  | matchN (subject : Nat) (cases : List (Int × Nat)) (default : Option Nat)
  | apply (func : Nat) (args : List Nat)
  | funcDef (name : String) (params : List Nat) (body : Nat)
  | measure (target : Nat) (source : Nat)
  | identity
deriving DecidableEq, Repr

/-- `ProgramArena` in `program/arena.rs`: the node store, the value
store and the variable-intern map. -/
structure ProgramArena where
  nodes : List NodeData
  values : List ValueData
  var_names : List (String × Nat)
deriving DecidableEq, Repr

/-- `ProgramArena::new`. -/
def ProgramArena.new : ProgramArena := ⟨[], [], []⟩

/-- Lookup in the variable-intern map (`HashMap::get`); names are
inserted at most once, so the association list is faithful. -/
def lookupName : List (String × Nat) → String → Option Nat
  | [], _ => none
  | (k, v) :: rest, n => if k = n then some v else lookupName rest n

/-- `ProgramArena::literal`. -/
def ProgramArena.literal (p : ProgramArena) (value : Int) : ProgramArena × Nat :=
  ({ p with values := p.values ++ [ValueData.int value] }, p.values.length)

/-- `ProgramArena::literal_float`, applied to the bit pattern. -/
def ProgramArena.literal_float (p : ProgramArena) (bits : Int) : ProgramArena × Nat :=
  ({ p with values := p.values ++ [ValueData.float bits] }, p.values.length)

/-- `ProgramArena::variable` (named `mkVariable`; `variable` is a Lean
keyword): an existing name returns its interned id unchanged,
otherwise the name is registered with the hint parsed from the string
(unknown hints default to `Int32`). -/
def ProgramArena.mkVariable (p : ProgramArena) (name type_hint : String) :
    ProgramArena × Nat :=
  match lookupName p.var_names name with
  | some id => (p, id)
  | none =>
    let hint := (TypeHint.from_str type_hint).getD TypeHint.int32
    let id := p.values.length
    ({ p with values := p.values ++ [ValueData.var name hint],
              var_names := (name, id) :: p.var_names }, id)

/-- `ProgramArena::chain`. -/
def ProgramArena.chain (p : ProgramArena) (left right : Nat) : ProgramArena × Nat :=
  ({ p with nodes := p.nodes ++ [NodeData.chain left right] }, p.nodes.length)

/-- `ProgramArena::identity`. -/
def ProgramArena.identityNode (p : ProgramArena) : ProgramArena × Nat :=
  ({ p with nodes := p.nodes ++ [NodeData.identity] }, p.nodes.length)

/-- `ProgramArena::is_literal` —
`values.get(id).map(|v| v.is_literal()).unwrap_or(false)`. -/
def ProgramArena.is_literal (p : ProgramArena) (value_id : Nat) : Bool :=
  ((p.values.get? value_id).map ValueData.is_literal).getD false

/-- `ProgramArena::is_variable`. -/
def ProgramArena.is_variable (p : ProgramArena) (value_id : Nat) : Bool :=
  ((p.values.get? value_id).map ValueData.is_variable).getD false

/-- `ProgramArena::get_literal_int` — `get(id).and_then(as_int)`. -/
def ProgramArena.get_literal_int (p : ProgramArena) (value_id : Nat) : Option Int :=
  (p.values.get? value_id).bind ValueData.as_int

/-- `ProgramArena::get_literal_float`. -/
def ProgramArena.get_literal_float (p : ProgramArena) (value_id : Nat) : Option Int :=
  (p.values.get? value_id).bind ValueData.as_float

/-- `ProgramArena::get_variable_name`. -/
def ProgramArena.get_variable_name (p : ProgramArena) (value_id : Nat) : Option String :=
  match p.values.get? value_id with
  | some (ValueData.var name _) => some name
  | _ => none

/-- Concrete arena for the C10 witness: one int literal (id 0) and one
float literal (id 1). -/
def qArena : ProgramArena :=
  ((ProgramArena.new.literal 42).1.literal_float 7).1

/-- One pass of the pairing loop inside
`ProgramArena::chain_sequence`: combine adjacent pairs, carrying an
odd tail unchanged. -/
def chainRound (p : ProgramArena) : List Nat → ProgramArena × List Nat
  | [] => (p, [])
  | [x] => (p, [x])
  | x :: y :: rest =>
    let pc := p.chain x y
    let pr := chainRound pc.1 rest
    (pr.1, pc.2 :: pr.2)

/-- The `while current.len() > 1` loop of `chain_sequence`, with a
structural fuel bound on the number of rounds (the input length always
suffices, since every round at least halves the list). -/
def chainLoopAux : Nat → ProgramArena → List Nat → ProgramArena × List Nat
  | 0, p, cur => (p, cur)
  | fuel + 1, p, cur =>
    if cur.length ≤ 1 then (p, cur)
    else
      let pr := chainRound p cur
      chainLoopAux fuel pr.1 pr.2

/-- `ProgramArena::chain_sequence`: `none` on an empty list, the
element itself on a singleton, otherwise the balanced pairwise
reduction. -/
def ProgramArena.chain_sequence (p : ProgramArena) (nodes : List Nat) :
    ProgramArena × Option Nat :=
  match nodes with
  | [] => (p, none)
  | [x] => (p, some x)
  | _ =>
    let pr := chainLoopAux nodes.length p nodes
    (pr.1, pr.2.head?)

/-- Modelled from the spec: the chain-tree depth of a Program Arena
node.  `src/` ships no depth query for the Program Arena; the spec's
balanced-chain property ("tree depth ≤ ⌈log₂ N⌉ + 1", §4.1/§8) counts
`Chain` levels with the combined input nodes as leaves, exactly like
`ArenaContext::max_depth` with `Chain` as the only composite. -/
def pDepthAux (p : ProgramArena) : Nat → Nat → Nat
  | 0, _ => 1
  | fuel + 1, i =>
    match p.nodes.get? i with
    | some (NodeData.chain l r) =>
      if l < i ∧ r < i then 1 + max (pDepthAux p fuel l) (pDepthAux p fuel r) else 1
    | _ => 1

/-- Chain-tree depth at a handle. -/
def pDepth (p : ProgramArena) (i : Nat) : Nat := pDepthAux p (i + 1) i

/-- Modelled from the spec: `ArenaContext::compose_sequence`
(§4.1).  The function is called from `lib.rs` but its body is not
under `src/`; the spec specifies a balanced chain tree built by
repeated pairwise reduction with a carry for odd tails — the same
scheme as `ProgramArena::chain_sequence` — combining with
`sequential`, returning nothing on an empty list and the element
itself on a singleton.  One pairing pass: -/
def seqRound (a : ArenaContext) : List Nat → ArenaContext × List Nat
  | [] => (a, [])
  | [x] => (a, [x])
  | x :: y :: rest =>
    let ac := a.sequential x y
    let ar := seqRound ac.1 rest
    (ar.1, ac.2 :: ar.2)

/-- Modelled from the spec: the halving loop of `compose_sequence`,
fuelled by the input length. -/
def seqLoopAux : Nat → ArenaContext → List Nat → ArenaContext × List Nat
  | 0, a, cur => (a, cur)
  | fuel + 1, a, cur =>
    if cur.length ≤ 1 then (a, cur)
    else
      let ar := seqRound a cur
      seqLoopAux fuel ar.1 ar.2

/-- Modelled from the spec: `ArenaContext::compose_sequence`. -/
def ArenaContext.compose_sequence (a : ArenaContext) (nodes : List Nat) :
    ArenaContext × Option Nat :=
  match nodes with
  | [] => (a, none)
  | [x] => (a, some x)
  | _ =>
    let ar := seqLoopAux nodes.length a nodes
    (ar.1, ar.2.head?)

/-- Three identity nodes for the C7 witness (program side). -/
def wpArena : ProgramArena :=
  (((ProgramArena.new.identityNode).1.identityNode).1.identityNode).1

/-- Three atomics for the C7 witness (morphism side). -/
def wmArena : ArenaContext :=
  ((((ArenaContext.atomic ⟨[]⟩ 0 1 0 []).1.atomic 1 1 0 []).1.atomic 2 1 0 [])).1

/-! ## Theorems -/

theorem dfsAux_succ (a : ArenaContext) (fuel i t : Nat) :
    dfsAux a (fuel + 1) i t =
      match a.nodes.get? i with
      | none => []
      | some (.atomic ch _ p) => [⟨t, ch, p.opcode, p.data⟩]
      | some (.sequential l r _ _) =>
        if l < i ∧ r < i then
          dfsAux a fuel l t ++ dfsAux a fuel r (t + a.durationAt l)
        else []
      | some (.parallel l r _ _) =>
        if l < i ∧ r < i then dfsAux a fuel l t ++ dfsAux a fuel r t else [] := rfl

theorem dfsAux_congr (a : ArenaContext) :
    ∀ i (f₁ f₂ t : Nat), i < f₁ → i < f₂ → dfsAux a f₁ i t = dfsAux a f₂ i t := by
  intro i
  induction i using Nat.strong_induction_on with
  | _ i ih =>
    intro f₁ f₂ t h₁ h₂
    obtain ⟨g₁, rfl⟩ : ∃ g, f₁ = g + 1 := ⟨f₁ - 1, by omega⟩
    obtain ⟨g₂, rfl⟩ : ∃ g, f₂ = g + 1 := ⟨f₂ - 1, by omega⟩
    cases hn : a.nodes.get? i with
    | none => simp only [dfsAux_succ, hn]
    | some d =>
      cases d with
      | atomic ch dur p => simp only [dfsAux_succ, hn]
      | sequential l r dur cs =>
        by_cases hlr : l < i ∧ r < i
        · simp only [dfsAux_succ, hn, if_pos hlr]
          rw [ih l hlr.1 g₁ g₂ t (by omega) (by omega),
            ih r hlr.2 g₁ g₂ (t + a.durationAt l) (by omega) (by omega)]
        · simp only [dfsAux_succ, hn, if_neg hlr]
      | parallel l r dur cs =>
        by_cases hlr : l < i ∧ r < i
        · simp only [dfsAux_succ, hn, if_pos hlr]
          rw [ih l hlr.1 g₁ g₂ t (by omega) (by omega),
            ih r hlr.2 g₁ g₂ t (by omega) (by omega)]
        · simp only [dfsAux_succ, hn, if_neg hlr]

theorem dfsEvents_none {a : ArenaContext} {i : Nat} (h : a.nodes.get? i = none) (t : Nat) :
    dfsEvents a i t = [] := by
  rw [dfsEvents, dfsAux_succ, h]

theorem dfsEvents_atomic {a : ArenaContext} {i ch dur : Nat} {p : AtomicPayload}
    (h : a.nodes.get? i = some (.atomic ch dur p)) (t : Nat) :
    dfsEvents a i t = [⟨t, ch, p.opcode, p.data⟩] := by
  rw [dfsEvents, dfsAux_succ, h]

theorem dfsEvents_seq {a : ArenaContext} {i l r dur : Nat} {cs : List Nat}
    (h : a.nodes.get? i = some (.sequential l r dur cs)) (hl : l < i) (hr : r < i) (t : Nat) :
    dfsEvents a i t = dfsEvents a l t ++ dfsEvents a r (t + a.durationAt l) := by
  rw [dfsEvents]
  simp only [dfsAux_succ, h, if_pos (And.intro hl hr)]
  rw [dfsAux_congr a l i (l + 1) t hl (by omega),
      dfsAux_congr a r i (r + 1) (t + a.durationAt l) hr (by omega)]
  rfl

theorem dfsEvents_par {a : ArenaContext} {i l r dur : Nat} {cs : List Nat}
    (h : a.nodes.get? i = some (.parallel l r dur cs)) (hl : l < i) (hr : r < i) (t : Nat) :
    dfsEvents a i t = dfsEvents a l t ++ dfsEvents a r t := by
  rw [dfsEvents]
  simp only [dfsAux_succ, h, if_pos (And.intro hl hr)]
  rw [dfsAux_congr a l i (l + 1) t hl (by omega),
      dfsAux_congr a r i (r + 1) t hr (by omega)]
  rfl

theorem dfsEvents_seq_stuck {a : ArenaContext} {i l r dur : Nat} {cs : List Nat}
    (h : a.nodes.get? i = some (.sequential l r dur cs)) (hlr : ¬ (l < i ∧ r < i)) (t : Nat) :
    dfsEvents a i t = [] := by
  rw [dfsEvents]
  simp only [dfsAux_succ, h, if_neg hlr]

theorem dfsEvents_par_stuck {a : ArenaContext} {i l r dur : Nat} {cs : List Nat}
    (h : a.nodes.get? i = some (.parallel l r dur cs)) (hlr : ¬ (l < i ∧ r < i)) (t : Nat) :
    dfsEvents a i t = [] := by
  rw [dfsEvents]
  simp only [dfsAux_succ, h, if_neg hlr]

theorem incAux_succ (a : ArenaContext) (fuel i : Nat) :
    incAux a (fuel + 1) i =
      match a.nodes.get? i with
      | none => []
      | some (.atomic ch _ p) => [⟨0, ch, p.opcode, p.data⟩]
      | some (.sequential l r _ _) =>
        if l < i ∧ r < i then
          incAux a fuel l ++ (incAux a fuel r).map (shiftEvent (a.durationAt l))
        else []
      | some (.parallel l r _ _) =>
        if l < i ∧ r < i then merge_sorted_events (incAux a fuel l) (incAux a fuel r)
        else [] := rfl

theorem incAux_congr (a : ArenaContext) :
    ∀ i (f₁ f₂ : Nat), i < f₁ → i < f₂ → incAux a f₁ i = incAux a f₂ i := by
  intro i
  induction i using Nat.strong_induction_on with
  | _ i ih =>
    intro f₁ f₂ h₁ h₂
    obtain ⟨g₁, rfl⟩ : ∃ g, f₁ = g + 1 := ⟨f₁ - 1, by omega⟩
    obtain ⟨g₂, rfl⟩ : ∃ g, f₂ = g + 1 := ⟨f₂ - 1, by omega⟩
    cases hn : a.nodes.get? i with
    | none => simp only [incAux_succ, hn]
    | some d =>
      cases d with
      | atomic ch dur p => simp only [incAux_succ, hn]
      | sequential l r dur cs =>
        by_cases hlr : l < i ∧ r < i
        · simp only [incAux_succ, hn, if_pos hlr]
          rw [ih l hlr.1 g₁ g₂ (by omega) (by omega),
            ih r hlr.2 g₁ g₂ (by omega) (by omega)]
        · simp only [incAux_succ, hn, if_neg hlr]
      | parallel l r dur cs =>
        by_cases hlr : l < i ∧ r < i
        · simp only [incAux_succ, hn, if_pos hlr]
          rw [ih l hlr.1 g₁ g₂ (by omega) (by omega),
            ih r hlr.2 g₁ g₂ (by omega) (by omega)]
        · simp only [incAux_succ, hn, if_neg hlr]

theorem incNode_none {a : ArenaContext} {i : Nat} (h : a.nodes.get? i = none) :
    incNode a i = [] := by
  rw [incNode]
  simp only [incAux_succ, h]

theorem incNode_atomic {a : ArenaContext} {i ch dur : Nat} {p : AtomicPayload}
    (h : a.nodes.get? i = some (.atomic ch dur p)) :
    incNode a i = [⟨0, ch, p.opcode, p.data⟩] := by
  rw [incNode]
  simp only [incAux_succ, h]

theorem incNode_seq {a : ArenaContext} {i l r dur : Nat} {cs : List Nat}
    (h : a.nodes.get? i = some (.sequential l r dur cs)) (hl : l < i) (hr : r < i) :
    incNode a i = incNode a l ++ (incNode a r).map (shiftEvent (a.durationAt l)) := by
  rw [incNode]
  simp only [incAux_succ, h, if_pos (And.intro hl hr)]
  rw [incAux_congr a l i (l + 1) hl (by omega),
      incAux_congr a r i (r + 1) hr (by omega)]
  rfl

theorem incNode_par {a : ArenaContext} {i l r dur : Nat} {cs : List Nat}
    (h : a.nodes.get? i = some (.parallel l r dur cs)) (hl : l < i) (hr : r < i) :
    incNode a i = merge_sorted_events (incNode a l) (incNode a r) := by
  rw [incNode]
  simp only [incAux_succ, h, if_pos (And.intro hl hr)]
  rw [incAux_congr a l i (l + 1) hl (by omega),
      incAux_congr a r i (r + 1) hr (by omega)]
  rfl

theorem incNode_seq_stuck {a : ArenaContext} {i l r dur : Nat} {cs : List Nat}
    (h : a.nodes.get? i = some (.sequential l r dur cs)) (hlr : ¬ (l < i ∧ r < i)) :
    incNode a i = [] := by
  rw [incNode]
  simp only [incAux_succ, h, if_neg hlr]

theorem incNode_par_stuck {a : ArenaContext} {i l r dur : Nat} {cs : List Nat}
    (h : a.nodes.get? i = some (.parallel l r dur cs)) (hlr : ¬ (l < i ∧ r < i)) :
    incNode a i = [] := by
  rw [incNode]
  simp only [incAux_succ, h, if_neg hlr]

theorem leafCountAux_succ (a : ArenaContext) (fuel i : Nat) :
    leafCountAux a (fuel + 1) i =
      match a.nodes.get? i with
      | none => 0
      | some (.atomic _ _ _) => 1
      | some (.sequential l r _ _) =>
        if l < i ∧ r < i then leafCountAux a fuel l + leafCountAux a fuel r else 0
      | some (.parallel l r _ _) =>
        if l < i ∧ r < i then leafCountAux a fuel l + leafCountAux a fuel r else 0 := rfl

theorem leafCountAux_congr (a : ArenaContext) :
    ∀ i (f₁ f₂ : Nat), i < f₁ → i < f₂ → leafCountAux a f₁ i = leafCountAux a f₂ i := by
  intro i
  induction i using Nat.strong_induction_on with
  | _ i ih =>
    intro f₁ f₂ h₁ h₂
    obtain ⟨g₁, rfl⟩ : ∃ g, f₁ = g + 1 := ⟨f₁ - 1, by omega⟩
    obtain ⟨g₂, rfl⟩ : ∃ g, f₂ = g + 1 := ⟨f₂ - 1, by omega⟩
    cases hn : a.nodes.get? i with
    | none => simp only [leafCountAux_succ, hn]
    | some d =>
      cases d with
      | atomic ch dur p => simp only [leafCountAux_succ, hn]
      | sequential l r dur cs =>
        by_cases hlr : l < i ∧ r < i
        · simp only [leafCountAux_succ, hn, if_pos hlr]
          rw [ih l hlr.1 g₁ g₂ (by omega) (by omega),
            ih r hlr.2 g₁ g₂ (by omega) (by omega)]
        · simp only [leafCountAux_succ, hn, if_neg hlr]
      | parallel l r dur cs =>
        by_cases hlr : l < i ∧ r < i
        · simp only [leafCountAux_succ, hn, if_pos hlr]
          rw [ih l hlr.1 g₁ g₂ (by omega) (by omega),
            ih r hlr.2 g₁ g₂ (by omega) (by omega)]
        · simp only [leafCountAux_succ, hn, if_neg hlr]

theorem leaf_count_atomic {a : ArenaContext} {i ch dur : Nat} {p : AtomicPayload}
    (h : a.nodes.get? i = some (.atomic ch dur p)) :
    a.leaf_count i = 1 := by
  rw [ArenaContext.leaf_count]
  simp only [leafCountAux_succ, h]

theorem leaf_count_seq {a : ArenaContext} {i l r dur : Nat} {cs : List Nat}
    (h : a.nodes.get? i = some (.sequential l r dur cs)) (hl : l < i) (hr : r < i) :
    a.leaf_count i = a.leaf_count l + a.leaf_count r := by
  rw [ArenaContext.leaf_count]
  simp only [leafCountAux_succ, h, if_pos (And.intro hl hr)]
  rw [leafCountAux_congr a l i (l + 1) hl (by omega),
      leafCountAux_congr a r i (r + 1) hr (by omega)]
  rfl

theorem leaf_count_par {a : ArenaContext} {i l r dur : Nat} {cs : List Nat}
    (h : a.nodes.get? i = some (.parallel l r dur cs)) (hl : l < i) (hr : r < i) :
    a.leaf_count i = a.leaf_count l + a.leaf_count r := by
  rw [ArenaContext.leaf_count]
  simp only [leafCountAux_succ, h, if_pos (And.intro hl hr)]
  rw [leafCountAux_congr a l i (l + 1) hl (by omega),
      leafCountAux_congr a r i (r + 1) hr (by omega)]
  rfl

theorem maxDepthAux_succ (a : ArenaContext) (fuel i : Nat) :
    maxDepthAux a (fuel + 1) i =
      match a.nodes.get? i with
      | none => 1
      | some (.atomic _ _ _) => 1
      | some (.sequential l r _ _) =>
        if l < i ∧ r < i then 1 + max (maxDepthAux a fuel l) (maxDepthAux a fuel r) else 1
      | some (.parallel l r _ _) =>
        if l < i ∧ r < i then 1 + max (maxDepthAux a fuel l) (maxDepthAux a fuel r)
        else 1 := rfl

theorem maxDepthAux_congr (a : ArenaContext) :
    ∀ i (f₁ f₂ : Nat), i < f₁ → i < f₂ → maxDepthAux a f₁ i = maxDepthAux a f₂ i := by
  intro i
  induction i using Nat.strong_induction_on with
  | _ i ih =>
    intro f₁ f₂ h₁ h₂
    obtain ⟨g₁, rfl⟩ : ∃ g, f₁ = g + 1 := ⟨f₁ - 1, by omega⟩
    obtain ⟨g₂, rfl⟩ : ∃ g, f₂ = g + 1 := ⟨f₂ - 1, by omega⟩
    cases hn : a.nodes.get? i with
    | none => simp only [maxDepthAux_succ, hn]
    | some d =>
      cases d with
      | atomic ch dur p => simp only [maxDepthAux_succ, hn]
      | sequential l r dur cs =>
        by_cases hlr : l < i ∧ r < i
        · simp only [maxDepthAux_succ, hn, if_pos hlr]
          rw [ih l hlr.1 g₁ g₂ (by omega) (by omega),
            ih r hlr.2 g₁ g₂ (by omega) (by omega)]
        · simp only [maxDepthAux_succ, hn, if_neg hlr]
      | parallel l r dur cs =>
        by_cases hlr : l < i ∧ r < i
        · simp only [maxDepthAux_succ, hn, if_pos hlr]
          rw [ih l hlr.1 g₁ g₂ (by omega) (by omega),
            ih r hlr.2 g₁ g₂ (by omega) (by omega)]
        · simp only [maxDepthAux_succ, hn, if_neg hlr]

theorem max_depth_none {a : ArenaContext} {i : Nat} (h : a.nodes.get? i = none) :
    a.max_depth i = 1 := by
  rw [ArenaContext.max_depth]
  simp only [maxDepthAux_succ, h]

theorem max_depth_atomic {a : ArenaContext} {i ch dur : Nat} {p : AtomicPayload}
    (h : a.nodes.get? i = some (.atomic ch dur p)) :
    a.max_depth i = 1 := by
  rw [ArenaContext.max_depth]
  simp only [maxDepthAux_succ, h]

theorem max_depth_seq {a : ArenaContext} {i l r dur : Nat} {cs : List Nat}
    (h : a.nodes.get? i = some (.sequential l r dur cs)) (hl : l < i) (hr : r < i) :
    a.max_depth i = 1 + max (a.max_depth l) (a.max_depth r) := by
  rw [ArenaContext.max_depth]
  simp only [maxDepthAux_succ, h, if_pos (And.intro hl hr)]
  rw [maxDepthAux_congr a l i (l + 1) hl (by omega),
      maxDepthAux_congr a r i (r + 1) hr (by omega)]
  rfl

theorem nodeAt_append {a : ArenaContext} (ext : List MorphismData) {i : Nat}
    (h : i < a.nodes.length) :
    ArenaContext.nodeAt ⟨a.nodes ++ ext⟩ i = a.nodeAt i := by
  simp only [ArenaContext.nodeAt, List.get?_append h]

theorem durationAt_append {a : ArenaContext} (ext : List MorphismData) {i : Nat}
    (h : i < a.nodes.length) :
    ArenaContext.durationAt ⟨a.nodes ++ ext⟩ i = a.durationAt i := by
  simp only [ArenaContext.durationAt, nodeAt_append ext h]

theorem channelsAt_append {a : ArenaContext} (ext : List MorphismData) {i : Nat}
    (h : i < a.nodes.length) :
    ArenaContext.channelsAt ⟨a.nodes ++ ext⟩ i = a.channelsAt i := by
  simp only [ArenaContext.channelsAt, nodeAt_append ext h]

theorem NodeOK_extend {a : ArenaContext} (ext : List MorphismData) {i : Nat}
    (hi : i < a.nodes.length) (hok : NodeOK a i) :
    NodeOK ⟨a.nodes ++ ext⟩ i := by
  constructor
  · intro l r dur cs hget
    rw [List.get?_append hi] at hget
    obtain ⟨hl, hr, hdur, hcs⟩ := hok.1 l r dur cs hget
    exact ⟨hl, hr,
      by rw [durationAt_append ext (by omega), durationAt_append ext (by omega)]; exact hdur,
      by rw [channelsAt_append ext (by omega), channelsAt_append ext (by omega)]; exact hcs⟩
  · intro l r dur cs hget
    rw [List.get?_append hi] at hget
    obtain ⟨hl, hr, hdur, hcs, hdisj⟩ := hok.2 l r dur cs hget
    exact ⟨hl, hr,
      by rw [durationAt_append ext (by omega), durationAt_append ext (by omega)]; exact hdur,
      by rw [channelsAt_append ext (by omega), channelsAt_append ext (by omega)]; exact hcs,
      by rw [channelsAt_append ext (by omega), channelsAt_append ext (by omega)]; exact hdisj⟩

theorem NodeOK_beyond {a : ArenaContext} {i : Nat} (h : a.nodes.length ≤ i) :
    NodeOK a i := by
  constructor <;> intro l r dur cs hget <;>
    rw [List.get?_eq_none.2 h] at hget <;> exact absurd hget (by simp)

/-- Every arena reachable through the public constructors satisfies
the construction invariant. -/
theorem Built.arenaInv {a : ArenaContext} (h : Built a) : ArenaInv a := by
  induction h with
  | nil =>
    intro i
    exact NodeOK_beyond (by simp)
  | atomic ch dur op data hb ih =>
    rename_i a'
    intro i
    rcases Nat.lt_trichotomy i a'.nodes.length with hi | hi | hi
    · exact NodeOK_extend _ hi (ih i)
    · subst hi
      constructor <;> intro l r d cs hget <;>
        · rw [show (a'.atomic ch dur op data).1.nodes
                = a'.nodes ++ [MorphismData.atomic ch dur ⟨op, data⟩] from rfl,
              List.get?_concat_length] at hget
          exact absurd hget (by simp)
    · refine NodeOK_beyond ?_
      show (a'.atomic ch dur op data).1.nodes.length ≤ i
      rw [show (a'.atomic ch dur op data).1.nodes
            = a'.nodes ++ [MorphismData.atomic ch dur ⟨op, data⟩] from rfl]
      simp only [List.length_append, List.length_cons, List.length_nil]
      omega
  | sequential hb hl hr ih =>
    intro i
    rename_i a' l' r'
    rcases Nat.lt_trichotomy i a'.nodes.length with hi | hi | hi
    · exact NodeOK_extend _ hi (ih i)
    · constructor
      · intro l r d cs hget
        rw [show (a'.sequential l' r').1.nodes = a'.nodes ++ [_] from rfl] at hget
        rw [hi, List.get?_concat_length] at hget
        simp only [ArenaContext.sequential, Option.some.injEq, MorphismData.sequential.injEq] at hget
        obtain ⟨h1, h2, h3, h4⟩ := hget
        subst h1; subst h2
        have harena : (a'.sequential l' r').1 = (⟨a'.nodes ++
            [MorphismData.sequential l' r' ((a'.nodeAt l').duration + (a'.nodeAt r').duration)
              (dedupAdj (sortChannels ((a'.nodeAt l').channels_vec ++ (a'.nodeAt r').channels_vec)))]⟩
            : ArenaContext) := rfl
        refine ⟨by omega, by omega, ?_, ?_⟩
        · rw [harena, durationAt_append _ hl, durationAt_append _ hr]
          exact h3.symm
        · rw [harena, channelsAt_append _ hl, channelsAt_append _ hr]
          exact h4.symm
      · intro l r d cs hget
        rw [show (a'.sequential l' r').1.nodes = a'.nodes ++ [_] from rfl] at hget
        rw [hi, List.get?_concat_length] at hget
        exact absurd hget (by simp [ArenaContext.sequential])
    · refine NodeOK_beyond ?_
      show (a'.sequential l' r').1.nodes.length ≤ i
      rw [show (a'.sequential l' r').1.nodes = a'.nodes ++ [_] from rfl]
      simp only [List.length_append, List.length_cons, List.length_nil]
      omega
  | parallel hb hl hr ih =>
    intro i
    rename_i a' l' r'
    by_cases hconf :
        has_intersection (a'.nodeAt l').channels_vec (a'.nodeAt r').channels_vec = true
    · rw [show (a'.parallel l' r').1 = a' from by
        simp only [ArenaContext.parallel, if_pos hconf]]
      exact ih i
    · have hnodes : (a'.parallel l' r').1.nodes = a'.nodes ++
          [.parallel l' r' (max (a'.nodeAt l').duration (a'.nodeAt r').duration)
            (sortChannels ((a'.nodeAt l').channels_vec ++ (a'.nodeAt r').channels_vec))] := by
        simp only [ArenaContext.parallel, if_neg hconf]
      rcases Nat.lt_trichotomy i a'.nodes.length with hi | hi | hi
      · rw [show (a'.parallel l' r').1 = ⟨a'.nodes ++ _⟩ from by rw [← hnodes]]
        exact NodeOK_extend _ hi (ih i)
      · constructor
        · intro l r d cs hget
          rw [hnodes, hi, List.get?_concat_length] at hget
          exact absurd hget (by simp)
        · intro l r d cs hget
          rw [hnodes, hi, List.get?_concat_length] at hget
          simp only [Option.some.injEq, MorphismData.parallel.injEq] at hget
          obtain ⟨h1, h2, h3, h4⟩ := hget
          subst h1; subst h2
          have harena : (a'.parallel l' r').1 = (⟨a'.nodes ++
              [MorphismData.parallel l' r' (max (a'.nodeAt l').duration (a'.nodeAt r').duration)
                (sortChannels ((a'.nodeAt l').channels_vec ++ (a'.nodeAt r').channels_vec))]⟩
              : ArenaContext) := congrArg ArenaContext.mk hnodes
          refine ⟨by omega, by omega, ?_, ?_, ?_⟩
          · rw [harena, durationAt_append _ hl, durationAt_append _ hr]
            exact h3.symm
          · rw [harena, channelsAt_append _ hl, channelsAt_append _ hr]
            exact h4.symm
          · rw [harena, channelsAt_append _ hl, channelsAt_append _ hr]
            simpa using hconf
      · refine NodeOK_beyond ?_
        rw [hnodes]
        simp only [List.length_append, List.length_cons, List.length_nil]
        omega

theorem nodeAt_eq_of_get? {a : ArenaContext} {i : Nat} {d : MorphismData}
    (h : a.nodes.get? i = some d) : a.nodeAt i = d := by
  simp only [ArenaContext.nodeAt, h, Option.getD_some]

theorem dedupAdj_mem : ∀ (l : List Nat) (x : Nat), x ∈ dedupAdj l ↔ x ∈ l
  | [], _ => Iff.rfl
  | [_], _ => Iff.rfl
  | y :: z :: rest, x => by
    simp only [dedupAdj]
    by_cases h : y = z
    · rw [if_pos h, dedupAdj_mem (z :: rest) x]
      subst h
      simp only [List.mem_cons]
      tauto
    · rw [if_neg h]
      simp only [List.mem_cons, dedupAdj_mem (z :: rest) x]

theorem dedupAdj_sorted : ∀ {l : List Nat},
    List.Sorted (· ≤ ·) l → List.Sorted (· < ·) (dedupAdj l)
  | [], _ => List.sorted_nil
  | [_], _ => List.sorted_singleton _
  | y :: z :: rest, h => by
    have htail : List.Sorted (· ≤ ·) (z :: rest) := (List.sorted_cons.1 h).2
    simp only [dedupAdj]
    by_cases hyz : y = z
    · rw [if_pos hyz]
      exact dedupAdj_sorted htail
    · rw [if_neg hyz]
      rw [List.sorted_cons]
      refine ⟨?_, dedupAdj_sorted htail⟩
      intro b hb
      rw [dedupAdj_mem] at hb
      have hy_le : ∀ c ∈ z :: rest, y ≤ c := (List.sorted_cons.1 h).1
      rcases List.mem_cons.1 hb with rfl | hb'
      · exact lt_of_le_of_ne (hy_le b (List.mem_cons_self _ _)) hyz
      · have hzb : z ≤ b := (List.sorted_cons.1 htail).1 b hb'
        have hyz' : y ≤ z := hy_le z (List.mem_cons_self _ _)
        omega

theorem sortChannels_sorted (l : List Nat) : List.Sorted (· ≤ ·) (sortChannels l) :=
  List.sorted_insertionSort _ l

theorem sortChannels_perm (l : List Nat) : List.Perm (sortChannels l) l :=
  List.perm_insertionSort _ l

theorem hiAux_iff : ∀ (fuel : Nat) (x y : List Nat), x.length + y.length ≤ fuel →
    List.Sorted (· ≤ ·) x → List.Sorted (· ≤ ·) y →
    (hiAux fuel x y = true ↔ ∃ c, c ∈ x ∧ c ∈ y) := by
  intro fuel
  induction fuel with
  | zero =>
    intro x y hf _ _
    have hx : x = [] := List.length_eq_zero.1 (by omega)
    subst hx
    simp [hiAux]
  | succ f ih =>
    intro x y hf hsx hsy
    cases x with
    | nil => simp [hiAux]
    | cons a xs =>
      cases y with
      | nil => simp [hiAux]
      | cons b ys =>
        simp only [hiAux]
        by_cases hab : a = b
        · rw [if_pos hab]
          subst hab
          constructor
          · exact fun _ => ⟨a, List.mem_cons_self _ _, List.mem_cons_self _ _⟩
          · exact fun _ => rfl
        · rw [if_neg hab]
          by_cases hlt : a < b
          · rw [if_pos hlt]
            rw [ih xs (b :: ys) (by simp only [List.length_cons] at hf ⊢; omega)
              (List.sorted_cons.1 hsx).2 hsy]
            constructor
            · rintro ⟨c, hc1, hc2⟩
              exact ⟨c, List.mem_cons_of_mem _ hc1, hc2⟩
            · rintro ⟨c, hc1, hc2⟩
              rcases List.mem_cons.1 hc1 with rfl | hc1'
              · rcases List.mem_cons.1 hc2 with rfl | hc2'
                · exact absurd rfl hab
                · have : b ≤ c := (List.sorted_cons.1 hsy).1 c hc2'
                  omega
              · exact ⟨c, hc1', hc2⟩
          · rw [if_neg hlt]
            have hba : b < a := by omega
            rw [ih (a :: xs) ys (by simp only [List.length_cons] at hf ⊢; omega)
              hsx (List.sorted_cons.1 hsy).2]
            constructor
            · rintro ⟨c, hc1, hc2⟩
              exact ⟨c, hc1, List.mem_cons_of_mem _ hc2⟩
            · rintro ⟨c, hc1, hc2⟩
              rcases List.mem_cons.1 hc2 with rfl | hc2'
              · rcases List.mem_cons.1 hc1 with rfl | hc1'
                · exact absurd rfl hab
                · have : a ≤ c := (List.sorted_cons.1 hsx).1 c hc1'
                  omega
              · exact ⟨c, hc1, hc2'⟩

/-- Correctness of the two-pointer intersection test on sorted
inputs. -/
theorem has_intersection_iff {x y : List Nat}
    (hsx : List.Sorted (· ≤ ·) x) (hsy : List.Sorted (· ≤ ·) y) :
    has_intersection x y = true ↔ ∃ c, c ∈ x ∧ c ∈ y :=
  hiAux_iff (x.length + y.length) x y le_rfl hsx hsy

theorem leafChannelsAux_succ (a : ArenaContext) (fuel i : Nat) :
    leafChannelsAux a (fuel + 1) i =
      match a.nodes.get? i with
      | none => ∅
      | some (.atomic ch _ _) => {ch}
      | some (.sequential l r _ _) =>
        if l < i ∧ r < i then leafChannelsAux a fuel l ∪ leafChannelsAux a fuel r else ∅
      | some (.parallel l r _ _) =>
        if l < i ∧ r < i then leafChannelsAux a fuel l ∪ leafChannelsAux a fuel r
        else ∅ := rfl

theorem leafChannelsAux_congr (a : ArenaContext) :
    ∀ i (f₁ f₂ : Nat), i < f₁ → i < f₂ → leafChannelsAux a f₁ i = leafChannelsAux a f₂ i := by
  intro i
  induction i using Nat.strong_induction_on with
  | _ i ih =>
    intro f₁ f₂ h₁ h₂
    obtain ⟨g₁, rfl⟩ : ∃ g, f₁ = g + 1 := ⟨f₁ - 1, by omega⟩
    obtain ⟨g₂, rfl⟩ : ∃ g, f₂ = g + 1 := ⟨f₂ - 1, by omega⟩
    cases hn : a.nodes.get? i with
    | none => simp only [leafChannelsAux_succ, hn]
    | some d =>
      cases d with
      | atomic ch dur p => simp only [leafChannelsAux_succ, hn]
      | sequential l r dur cs =>
        by_cases hlr : l < i ∧ r < i
        · simp only [leafChannelsAux_succ, hn, if_pos hlr]
          rw [ih l hlr.1 g₁ g₂ (by omega) (by omega),
            ih r hlr.2 g₁ g₂ (by omega) (by omega)]
        · simp only [leafChannelsAux_succ, hn, if_neg hlr]
      | parallel l r dur cs =>
        by_cases hlr : l < i ∧ r < i
        · simp only [leafChannelsAux_succ, hn, if_pos hlr]
          rw [ih l hlr.1 g₁ g₂ (by omega) (by omega),
            ih r hlr.2 g₁ g₂ (by omega) (by omega)]
        · simp only [leafChannelsAux_succ, hn, if_neg hlr]

theorem leafChannels_atomic {a : ArenaContext} {i ch dur : Nat} {p : AtomicPayload}
    (h : a.nodes.get? i = some (.atomic ch dur p)) :
    leafChannels a i = {ch} := by
  rw [leafChannels]
  simp only [leafChannelsAux_succ, h]

theorem leafChannels_seq {a : ArenaContext} {i l r dur : Nat} {cs : List Nat}
    (h : a.nodes.get? i = some (.sequential l r dur cs)) (hl : l < i) (hr : r < i) :
    leafChannels a i = leafChannels a l ∪ leafChannels a r := by
  rw [leafChannels]
  simp only [leafChannelsAux_succ, h, if_pos (And.intro hl hr)]
  rw [leafChannelsAux_congr a l i (l + 1) hl (by omega),
      leafChannelsAux_congr a r i (r + 1) hr (by omega)]
  rfl

theorem leafChannels_par {a : ArenaContext} {i l r dur : Nat} {cs : List Nat}
    (h : a.nodes.get? i = some (.parallel l r dur cs)) (hl : l < i) (hr : r < i) :
    leafChannels a i = leafChannels a l ∪ leafChannels a r := by
  rw [leafChannels]
  simp only [leafChannelsAux_succ, h, if_pos (And.intro hl hr)]
  rw [leafChannelsAux_congr a l i (l + 1) hl (by omega),
      leafChannelsAux_congr a r i (r + 1) hr (by omega)]
  rfl

/-- Channel-set algebra over a well-formed arena: every node's channel
list is strictly sorted (hence duplicate-free) and denotes exactly the
set of leaf channel ids of its subtree. -/
theorem channels_ok {a : ArenaContext} (hinv : ArenaInv a) :
    ∀ i, i < a.nodes.length →
      List.Sorted (· < ·) (a.channelsAt i) ∧
        (a.channelsAt i).toFinset = leafChannels a i := by
  intro i
  induction i using Nat.strong_induction_on with
  | _ i ih =>
    intro hilen
    cases hn : a.nodes.get? i with
    | none => exact absurd (List.get?_eq_none.1 hn) (by omega)
    | some d =>
      have hnode : a.nodeAt i = d := nodeAt_eq_of_get? hn
      cases d with
      | atomic ch dur p =>
        have hch : a.channelsAt i = [ch] := by
          rw [ArenaContext.channelsAt, hnode]; rfl
        rw [hch, leafChannels_atomic hn]
        exact ⟨List.sorted_singleton _, by simp⟩
      | sequential l r dur cs =>
        obtain ⟨hl, hr, _, hcs⟩ := (hinv i).1 l r dur cs hn
        have hch : a.channelsAt i = cs := by
          rw [ArenaContext.channelsAt, hnode]; rfl
        obtain ⟨hsl, hfl⟩ := ih l hl (by omega)
        obtain ⟨hsr, hfr⟩ := ih r hr (by omega)
        constructor
        · rw [hch, hcs]
          exact dedupAdj_sorted (sortChannels_sorted _)
        · rw [hch, hcs, leafChannels_seq hn hl hr, ← hfl, ← hfr]
          ext x
          simp only [List.mem_toFinset, Finset.mem_union, dedupAdj_mem,
            (sortChannels_perm _).mem_iff, List.mem_append]
      | parallel l r dur cs =>
        obtain ⟨hl, hr, _, hcs, hdisj⟩ := (hinv i).2 l r dur cs hn
        have hch : a.channelsAt i = cs := by
          rw [ArenaContext.channelsAt, hnode]; rfl
        obtain ⟨hsl, hfl⟩ := ih l hl (by omega)
        obtain ⟨hsr, hfr⟩ := ih r hr (by omega)
        have hdisj' : List.Disjoint (a.channelsAt l) (a.channelsAt r) := by
          intro c hc1 hc2
          have htrue : has_intersection (a.channelsAt l) (a.channelsAt r) = true :=
            (has_intersection_iff hsl.le_of_lt hsr.le_of_lt).2 ⟨c, hc1, hc2⟩
          rw [hdisj] at htrue
          exact absurd htrue (by simp)
        have hnodup : (sortChannels (a.channelsAt l ++ a.channelsAt r)).Nodup :=
          (sortChannels_perm _).nodup_iff.2
            (List.nodup_append.2 ⟨hsl.nodup, hsr.nodup, hdisj'⟩)
        constructor
        · rw [hch, hcs]
          exact (sortChannels_sorted _).lt_of_le hnodup
        · rw [hch, hcs, leafChannels_par hn hl hr, ← hfl, ← hfr]
          ext x
          simp only [List.mem_toFinset, Finset.mem_union,
            (sortChannels_perm _).mem_iff, List.mem_append]

theorem dfsEvents_length (a : ArenaContext) :
    ∀ i (t : Nat), (dfsEvents a i t).length = a.leaf_count i := by
  intro i
  induction i using Nat.strong_induction_on with
  | _ i ih =>
    intro t
    cases hn : a.nodes.get? i with
    | none =>
      rw [dfsEvents_none hn, ArenaContext.leaf_count]
      simp only [leafCountAux_succ, hn, List.length_nil]
    | some d =>
      cases d with
      | atomic ch dur p =>
        rw [dfsEvents_atomic hn, leaf_count_atomic hn]
        rfl
      | sequential l r dur cs =>
        by_cases hlr : l < i ∧ r < i
        · rw [dfsEvents_seq hn hlr.1 hlr.2, leaf_count_seq hn hlr.1 hlr.2,
            List.length_append, ih l hlr.1 t, ih r hlr.2 (t + a.durationAt l)]
        · rw [dfsEvents_seq_stuck hn hlr, ArenaContext.leaf_count]
          simp only [leafCountAux_succ, hn, if_neg hlr, List.length_nil]
      | parallel l r dur cs =>
        by_cases hlr : l < i ∧ r < i
        · rw [dfsEvents_par hn hlr.1 hlr.2, leaf_count_par hn hlr.1 hlr.2,
            List.length_append, ih l hlr.1 t, ih r hlr.2 t]
        · rw [dfsEvents_par_stuck hn hlr, ArenaContext.leaf_count]
          simp only [leafCountAux_succ, hn, if_neg hlr, List.length_nil]

theorem durationAt_eq_of_get? {a : ArenaContext} {i : Nat} {d : MorphismData}
    (h : a.nodes.get? i = some d) : a.durationAt i = d.duration := by
  rw [ArenaContext.durationAt, nodeAt_eq_of_get? h]

/-- Every event of the traversal of the subtree at `i`, started at
absolute time `t`, lies in the window `[t, t + duration(i)]`. -/
theorem dfsEvents_time_bound {a : ArenaContext} (hinv : ArenaInv a) :
    ∀ i (t : Nat), ∀ e ∈ dfsEvents a i t, t ≤ e.time ∧ e.time ≤ t + a.durationAt i := by
  intro i
  induction i using Nat.strong_induction_on with
  | _ i ih =>
    intro t e he
    cases hn : a.nodes.get? i with
    | none =>
      rw [dfsEvents_none hn] at he
      exact absurd he (List.not_mem_nil e)
    | some d =>
      cases d with
      | atomic ch dur p =>
        rw [dfsEvents_atomic hn] at he
        rcases List.mem_singleton.1 he with rfl
        exact ⟨le_refl t, Nat.le_add_right t _⟩
      | sequential l r dur cs =>
        obtain ⟨hl, hr, hdur, _⟩ := (hinv i).1 l r dur cs hn
        have hdi : a.durationAt i = a.durationAt l + a.durationAt r := by
          rw [durationAt_eq_of_get? hn, MorphismData.duration, hdur]
        rw [dfsEvents_seq hn hl hr] at he
        rcases List.mem_append.1 he with hle | hre
        · obtain ⟨h1, h2⟩ := ih l hl t e hle
          exact ⟨h1, by omega⟩
        · obtain ⟨h1, h2⟩ := ih r hr (t + a.durationAt l) e hre
          exact ⟨by omega, by omega⟩
      | parallel l r dur cs =>
        obtain ⟨hl, hr, hdur, _, _⟩ := (hinv i).2 l r dur cs hn
        have hdi : a.durationAt i = max (a.durationAt l) (a.durationAt r) := by
          rw [durationAt_eq_of_get? hn, MorphismData.duration, hdur]
        rw [dfsEvents_par hn hl hr] at he
        rcases List.mem_append.1 he with hle | hre
        · obtain ⟨h1, h2⟩ := ih l hl t e hle
          exact ⟨h1, by omega⟩
        · obtain ⟨h1, h2⟩ := ih r hr t e hre
          exact ⟨h1, by omega⟩

theorem allLeavesPosAux_succ (a : ArenaContext) (fuel i : Nat) :
    allLeavesPosAux a (fuel + 1) i =
      match a.nodes.get? i with
      | none => true
      | some (.atomic _ dur _) => decide (0 < dur)
      | some (.sequential l r _ _) =>
        if l < i ∧ r < i then allLeavesPosAux a fuel l && allLeavesPosAux a fuel r else true
      | some (.parallel l r _ _) =>
        if l < i ∧ r < i then allLeavesPosAux a fuel l && allLeavesPosAux a fuel r
        else true := rfl

theorem allLeavesPosAux_congr (a : ArenaContext) :
    ∀ i (f₁ f₂ : Nat), i < f₁ → i < f₂ → allLeavesPosAux a f₁ i = allLeavesPosAux a f₂ i := by
  intro i
  induction i using Nat.strong_induction_on with
  | _ i ih =>
    intro f₁ f₂ h₁ h₂
    obtain ⟨g₁, rfl⟩ : ∃ g, f₁ = g + 1 := ⟨f₁ - 1, by omega⟩
    obtain ⟨g₂, rfl⟩ : ∃ g, f₂ = g + 1 := ⟨f₂ - 1, by omega⟩
    cases hn : a.nodes.get? i with
    | none => simp only [allLeavesPosAux_succ, hn]
    | some d =>
      cases d with
      | atomic ch dur p => simp only [allLeavesPosAux_succ, hn]
      | sequential l r dur cs =>
        by_cases hlr : l < i ∧ r < i
        · simp only [allLeavesPosAux_succ, hn, if_pos hlr]
          rw [ih l hlr.1 g₁ g₂ (by omega) (by omega),
            ih r hlr.2 g₁ g₂ (by omega) (by omega)]
        · simp only [allLeavesPosAux_succ, hn, if_neg hlr]
      | parallel l r dur cs =>
        by_cases hlr : l < i ∧ r < i
        · simp only [allLeavesPosAux_succ, hn, if_pos hlr]
          rw [ih l hlr.1 g₁ g₂ (by omega) (by omega),
            ih r hlr.2 g₁ g₂ (by omega) (by omega)]
        · simp only [allLeavesPosAux_succ, hn, if_neg hlr]

theorem allLeavesPos_atomic {a : ArenaContext} {i ch dur : Nat} {p : AtomicPayload}
    (h : a.nodes.get? i = some (.atomic ch dur p)) :
    allLeavesPos a i = decide (0 < dur) := by
  rw [allLeavesPos]
  simp only [allLeavesPosAux_succ, h]

theorem allLeavesPos_seq {a : ArenaContext} {i l r dur : Nat} {cs : List Nat}
    (h : a.nodes.get? i = some (.sequential l r dur cs)) (hl : l < i) (hr : r < i) :
    allLeavesPos a i = (allLeavesPos a l && allLeavesPos a r) := by
  rw [allLeavesPos]
  simp only [allLeavesPosAux_succ, h, if_pos (And.intro hl hr)]
  rw [allLeavesPosAux_congr a l i (l + 1) hl (by omega),
      allLeavesPosAux_congr a r i (r + 1) hr (by omega)]
  rfl

theorem allLeavesPos_par {a : ArenaContext} {i l r dur : Nat} {cs : List Nat}
    (h : a.nodes.get? i = some (.parallel l r dur cs)) (hl : l < i) (hr : r < i) :
    allLeavesPos a i = (allLeavesPos a l && allLeavesPos a r) := by
  rw [allLeavesPos]
  simp only [allLeavesPosAux_succ, h, if_pos (And.intro hl hr)]
  rw [allLeavesPosAux_congr a l i (l + 1) hl (by omega),
      allLeavesPosAux_congr a r i (r + 1) hr (by omega)]
  rfl

/-- With strictly positive leaf durations, the upper time bound is
strict. -/
theorem dfsEvents_time_strict {a : ArenaContext} (hinv : ArenaInv a) :
    ∀ i (t : Nat), allLeavesPos a i = true →
      ∀ e ∈ dfsEvents a i t, e.time < t + a.durationAt i := by
  intro i
  induction i using Nat.strong_induction_on with
  | _ i ih =>
    intro t hpos e he
    cases hn : a.nodes.get? i with
    | none =>
      rw [dfsEvents_none hn] at he
      exact absurd he (List.not_mem_nil e)
    | some d =>
      cases d with
      | atomic ch dur p =>
        rw [dfsEvents_atomic hn] at he
        rcases List.mem_singleton.1 he with rfl
        rw [allLeavesPos_atomic hn] at hpos
        have : 0 < dur := of_decide_eq_true hpos
        have hdi : a.durationAt i = dur := durationAt_eq_of_get? hn
        show t < t + a.durationAt i
        omega
      | sequential l r dur cs =>
        obtain ⟨hl, hr, hdur, _⟩ := (hinv i).1 l r dur cs hn
        have hdi : a.durationAt i = a.durationAt l + a.durationAt r := by
          rw [durationAt_eq_of_get? hn, MorphismData.duration, hdur]
        rw [allLeavesPos_seq hn hl hr, Bool.and_eq_true] at hpos
        rw [dfsEvents_seq hn hl hr] at he
        rcases List.mem_append.1 he with hle | hre
        · have := ih l hl t hpos.1 e hle
          omega
        · have := ih r hr (t + a.durationAt l) hpos.2 e hre
          omega
      | parallel l r dur cs =>
        obtain ⟨hl, hr, hdur, _, _⟩ := (hinv i).2 l r dur cs hn
        have hdi : a.durationAt i = max (a.durationAt l) (a.durationAt r) := by
          rw [durationAt_eq_of_get? hn, MorphismData.duration, hdur]
        rw [allLeavesPos_par hn hl hr, Bool.and_eq_true] at hpos
        rw [dfsEvents_par hn hl hr] at he
        rcases List.mem_append.1 he with hle | hre
        · have := ih l hl t hpos.1 e hle
          omega
        · have := ih r hr t hpos.2 e hre
          omega

theorem mergeAux_perm : ∀ (fuel : Nat) (a b : List FlatEvent),
    List.Perm (mergeAux fuel a b) (a ++ b)
  | 0, _, _ => List.Perm.refl _
  | _ + 1, [], _ => List.Perm.refl _
  | _ + 1, x :: xs, [] => by
    rw [show mergeAux (_ + 1) (x :: xs) [] = x :: xs from rfl, List.append_nil]
  | fuel + 1, x :: xs, y :: ys => by
    simp only [mergeAux]
    by_cases h : x.time ≤ y.time
    · rw [if_pos h]
      exact (mergeAux_perm fuel xs (y :: ys)).cons x
    · rw [if_neg h]
      exact ((mergeAux_perm fuel (x :: xs) ys).cons y).trans List.perm_middle.symm

theorem sorted_head_le {x : FlatEvent} {xs : List FlatEvent}
    (hs : List.Sorted timeLE (x :: xs)) : ∀ e ∈ x :: xs, x.time ≤ e.time := by
  intro e he
  rcases List.mem_cons.1 he with rfl | he'
  · exact le_refl _
  · exact (List.sorted_cons.1 hs).1 e he'

theorem sorted_le_last {xs : List FlatEvent} :
    ∀ {x : FlatEvent}, List.Sorted timeLE (x :: xs) →
      ∀ e ∈ x :: xs, e.time ≤ (xs.getLastD x).time := by
  induction xs with
  | nil =>
    intro x _ e he
    rcases List.mem_singleton.1 he with rfl
    exact le_refl _
  | cons y ys ih =>
    intro x hs e he
    have hxy : x.time ≤ y.time := (List.sorted_cons.1 hs).1 y (List.mem_cons_self _ _)
    have htail : List.Sorted timeLE (y :: ys) := (List.sorted_cons.1 hs).2
    rw [List.getLastD_cons]
    rcases List.mem_cons.1 he with rfl | he'
    · exact le_trans hxy (ih htail y (List.mem_cons_self _ _))
    · exact ih htail e he'

theorem mergeAux_sorted : ∀ (fuel : Nat) (a b : List FlatEvent),
    a.length + b.length ≤ fuel → List.Sorted timeLE a → List.Sorted timeLE b →
    List.Sorted timeLE (mergeAux fuel a b) := by
  intro fuel
  induction fuel with
  | zero =>
    intro a b hf _ _
    have ha : a = [] := List.length_eq_zero.1 (by omega)
    have hb : b = [] := List.length_eq_zero.1 (by omega)
    subst ha; subst hb
    exact List.sorted_nil
  | succ f ih =>
    intro a b hf ha hb
    cases a with
    | nil => exact hb
    | cons x xs =>
      cases b with
      | nil => exact ha
      | cons y ys =>
        simp only [mergeAux]
        by_cases h : x.time ≤ y.time
        · rw [if_pos h]
          rw [List.sorted_cons]
          refine ⟨?_, ih xs (y :: ys)
            (by simp only [List.length_cons] at hf ⊢; omega) (List.sorted_cons.1 ha).2 hb⟩
          intro e he
          rcases List.mem_append.1 ((mergeAux_perm f xs (y :: ys)).subset he) with h1 | h2
          · exact (List.sorted_cons.1 ha).1 e h1
          · exact le_trans h (sorted_head_le hb e h2)
        · rw [if_neg h]
          rw [List.sorted_cons]
          refine ⟨?_, ih (x :: xs) ys
            (by simp only [List.length_cons] at hf ⊢; omega) ha (List.sorted_cons.1 hb).2⟩
          intro e he
          rcases List.mem_append.1 ((mergeAux_perm f (x :: xs) ys).subset he) with h1 | h2
          · exact le_trans (le_of_lt (by omega : y.time < x.time)) (sorted_head_le ha e h1)
          · exact (List.sorted_cons.1 hb).1 e h2

theorem merge_nil_left (b : List FlatEvent) : merge_sorted_events [] b = b := by
  cases b <;> rfl

theorem merge_nil_right (a : List FlatEvent) : merge_sorted_events a [] = a := by
  cases a <;> rfl

theorem merge_sorted_events_perm (a b : List FlatEvent) :
    List.Perm (merge_sorted_events a b) (a ++ b) := by
  cases a with
  | nil =>
    rw [merge_nil_left, List.nil_append]
  | cons x xs =>
    cases b with
    | nil =>
      rw [merge_nil_right, List.append_nil]
    | cons y ys =>
      simp only [merge_sorted_events]
      by_cases h1 : (xs.getLastD x).time ≤ y.time
      · rw [if_pos h1]
      · rw [if_neg h1]
        by_cases h2 : (ys.getLastD y).time ≤ x.time
        · rw [if_pos h2]
          exact List.perm_append_comm
        · rw [if_neg h2]
          exact mergeAux_perm _ _ _

theorem merge_sorted_events_sorted {a b : List FlatEvent}
    (ha : List.Sorted timeLE a) (hb : List.Sorted timeLE b) :
    List.Sorted timeLE (merge_sorted_events a b) := by
  cases a with
  | nil => rw [merge_nil_left]; exact hb
  | cons x xs =>
    cases b with
    | nil => rw [merge_nil_right]; exact ha
    | cons y ys =>
      simp only [merge_sorted_events]
      by_cases h1 : (xs.getLastD x).time ≤ y.time
      · rw [if_pos h1]
        refine List.pairwise_append.2 ⟨ha, hb, ?_⟩
        intro u hu v hv
        exact le_trans (le_trans (sorted_le_last ha u hu) h1) (sorted_head_le hb v hv)
      · rw [if_neg h1]
        by_cases h2 : (ys.getLastD y).time ≤ x.time
        · rw [if_pos h2]
          refine List.pairwise_append.2 ⟨hb, ha, ?_⟩
          intro u hu v hv
          exact le_trans (le_trans (sorted_le_last hb u hu) h2) (sorted_head_le ha v hv)
        · rw [if_neg h2]
          exact mergeAux_sorted _ _ _ le_rfl ha hb

theorem mergeAux_all_le : ∀ (fuel : Nat) (a b : List FlatEvent),
    (∀ x ∈ a, ∀ y ∈ b, x.time ≤ y.time) → mergeAux fuel a b = a ++ b
  | 0, _, _, _ => rfl
  | _ + 1, [], _, _ => rfl
  | _ + 1, x :: xs, [], _ => by
    rw [show mergeAux (_ + 1) (x :: xs) [] = x :: xs from rfl, List.append_nil]
  | fuel + 1, x :: xs, y :: ys, hcross => by
    simp only [mergeAux]
    rw [if_pos (hcross x (List.mem_cons_self _ _) y (List.mem_cons_self _ _))]
    rw [mergeAux_all_le fuel xs (y :: ys)
      (fun u hu v hv => hcross u (List.mem_cons_of_mem _ hu) v hv)]
    rfl

theorem mergeAux_all_lt : ∀ (fuel : Nat) (a b : List FlatEvent), b.length < fuel →
    (∀ x ∈ a, ∀ y ∈ b, y.time < x.time) → mergeAux fuel a b = b ++ a := by
  intro fuel
  induction fuel with
  | zero => intro a b hf _; omega
  | succ f ih =>
    intro a b hf hcross
    cases b with
    | nil =>
      cases a with
      | nil => rfl
      | cons x xs => rfl
    | cons y ys =>
      cases a with
      | nil =>
        rw [show mergeAux (f + 1) [] (y :: ys) = y :: ys from rfl, List.append_nil]
      | cons x xs =>
        simp only [mergeAux]
        have hyx : y.time < x.time :=
          hcross x (List.mem_cons_self _ _) y (List.mem_cons_self _ _)
        rw [if_neg (by omega)]
        rw [ih (x :: xs) ys (by simp only [List.length_cons] at hf ⊢; omega)
          (fun u hu v hv => hcross u hu v (List.mem_cons_of_mem _ hv))]
        rfl

theorem shiftEvent_add (d t : Nat) (e : FlatEvent) :
    shiftEvent t (shiftEvent d e) = shiftEvent (d + t) e := by
  simp only [shiftEvent, Nat.add_assoc]

theorem map_shift_shift (s t : Nat) (l : List FlatEvent) :
    (l.map (shiftEvent s)).map (shiftEvent t) = l.map (shiftEvent (s + t)) := by
  induction l with
  | nil => rfl
  | cons e l ih => simp only [List.map_cons, ih, shiftEvent_add]

theorem sorted_map_shift {l : List FlatEvent} (d : Nat) (h : List.Sorted timeLE l) :
    List.Sorted timeLE (l.map (shiftEvent d)) := by
  rw [List.Sorted, List.pairwise_map]
  exact List.Pairwise.imp (fun hab => Nat.add_le_add_right hab d) h

/-- Starting the traversal at `t` is the same as starting it at the
subtree's local zero and shifting every event by `t` — the key fact
behind the incremental compiler's local-time caching. -/
theorem dfsEvents_shift (a : ArenaContext) :
    ∀ i (t : Nat), dfsEvents a i t = (dfsEvents a i 0).map (shiftEvent t) := by
  intro i
  induction i using Nat.strong_induction_on with
  | _ i ih =>
    intro t
    cases hn : a.nodes.get? i with
    | none => rw [dfsEvents_none hn, dfsEvents_none hn, List.map_nil]
    | some d =>
      cases d with
      | atomic ch dur p =>
        rw [dfsEvents_atomic hn, dfsEvents_atomic hn]
        simp only [List.map_cons, List.map_nil, shiftEvent]
        rw [Nat.zero_add]
      | sequential l r dur cs =>
        by_cases hlr : l < i ∧ r < i
        · rw [dfsEvents_seq hn hlr.1 hlr.2 t, dfsEvents_seq hn hlr.1 hlr.2 0,
            List.map_append, ih l hlr.1 t, ih r hlr.2 (t + a.durationAt l),
            ih r hlr.2 (0 + a.durationAt l), map_shift_shift]
          rw [Nat.zero_add, Nat.add_comm (a.durationAt l) t]
        · rw [dfsEvents_seq_stuck hn hlr, dfsEvents_seq_stuck hn hlr, List.map_nil]
      | parallel l r dur cs =>
        by_cases hlr : l < i ∧ r < i
        · rw [dfsEvents_par hn hlr.1 hlr.2 t, dfsEvents_par hn hlr.1 hlr.2 0,
            List.map_append, ih l hlr.1 t, ih r hlr.2 t]
        · rw [dfsEvents_par_stuck hn hlr, dfsEvents_par_stuck hn hlr, List.map_nil]

/-- The incremental compiler's per-node event list is a permutation of
the flat traversal of the same subtree (started at the local zero). -/
theorem incNode_perm_dfs (a : ArenaContext) :
    ∀ i, List.Perm (incNode a i) (dfsEvents a i 0) := by
  intro i
  induction i using Nat.strong_induction_on with
  | _ i ih =>
    cases hn : a.nodes.get? i with
    | none => rw [incNode_none hn, dfsEvents_none hn]
    | some d =>
      cases d with
      | atomic ch dur p =>
        rw [incNode_atomic hn, dfsEvents_atomic hn]
      | sequential l r dur cs =>
        by_cases hlr : l < i ∧ r < i
        · rw [incNode_seq hn hlr.1 hlr.2, dfsEvents_seq hn hlr.1 hlr.2 0,
            dfsEvents_shift a r (0 + a.durationAt l), Nat.zero_add]
          exact (ih l hlr.1).append ((ih r hlr.2).map _)
        · rw [incNode_seq_stuck hn hlr, dfsEvents_seq_stuck hn hlr]
      | parallel l r dur cs =>
        by_cases hlr : l < i ∧ r < i
        · rw [incNode_par hn hlr.1 hlr.2, dfsEvents_par hn hlr.1 hlr.2 0]
          exact (merge_sorted_events_perm _ _).trans ((ih l hlr.1).append (ih r hlr.2))
        · rw [incNode_par_stuck hn hlr, dfsEvents_par_stuck hn hlr]

theorem incNode_time_le {a : ArenaContext} (hinv : ArenaInv a) (i : Nat) :
    ∀ e ∈ incNode a i, e.time ≤ a.durationAt i := by
  intro e he
  have hmem := (incNode_perm_dfs a i).subset he
  have h2 := (dfsEvents_time_bound hinv i 0 e hmem).2
  omega

/-- The incremental compiler's cached lists are sorted by time: a
sequential concatenation is already ordered (left events stay below
the left duration, shifted right events start there), a parallel node
goes through the ordered merge. -/
theorem incNode_sorted {a : ArenaContext} (hinv : ArenaInv a) :
    ∀ i, List.Sorted timeLE (incNode a i) := by
  intro i
  induction i using Nat.strong_induction_on with
  | _ i ih =>
    cases hn : a.nodes.get? i with
    | none => rw [incNode_none hn]; exact List.sorted_nil
    | some d =>
      cases d with
      | atomic ch dur p =>
        rw [incNode_atomic hn]
        exact List.sorted_singleton _
      | sequential l r dur cs =>
        by_cases hlr : l < i ∧ r < i
        · rw [incNode_seq hn hlr.1 hlr.2]
          refine List.pairwise_append.2 ⟨ih l hlr.1, sorted_map_shift _ (ih r hlr.2), ?_⟩
          intro u hu v hv
          obtain ⟨w, _, rfl⟩ := List.mem_map.1 hv
          have h1 : u.time ≤ a.durationAt l := incNode_time_le hinv l u hu
          show u.time ≤ w.time + a.durationAt l
          omega
        · rw [incNode_seq_stuck hn hlr]; exact List.sorted_nil
      | parallel l r dur cs =>
        by_cases hlr : l < i ∧ r < i
        · rw [incNode_par hn hlr.1 hlr.2]
          exact merge_sorted_events_sorted (ih l hlr.1) (ih r hlr.2)
        · rw [incNode_par_stuck hn hlr]; exact List.sorted_nil

theorem cacheLookup_mem : ∀ {c : Cache} {i : Nat} {v : List FlatEvent},
    cacheLookup c i = some v → (i, v) ∈ c := by
  intro c
  induction c with
  | nil => intro i v h; exact absurd h (by simp [cacheLookup])
  | cons p rest ih =>
    intro i v h
    obtain ⟨k, w⟩ := p
    simp only [cacheLookup] at h
    by_cases hk : k = i
    · rw [if_pos hk] at h
      obtain rfl := Option.some.injEq _ _ ▸ h
      subst hk
      exact List.mem_cons_self _ _
    · rw [if_neg hk] at h
      exact List.mem_cons_of_mem _ (ih h)

theorem compileNodeAux_succ (a : ArenaContext) (g i : Nat) (c : Cache) :
    compileNodeAux a (g + 1) i c =
      match cacheLookup c i with
      | some v => (v, c)
      | none =>
        let (events, c') :=
          match a.nodes.get? i with
          | none => ([], c)
          | some (.atomic ch _ p) => ([⟨0, ch, p.opcode, p.data⟩], c)
          | some (.sequential l r _ _) =>
            if l < i ∧ r < i then
              let (le, c₁) := compileNodeAux a g l c
              let (re, c₂) := compileNodeAux a g r c₁
              (le ++ re.map (shiftEvent (a.durationAt l)), c₂)
            else ([], c)
          | some (.parallel l r _ _) =>
            if l < i ∧ r < i then
              let (le, c₁) := compileNodeAux a g l c
              let (re, c₂) := compileNodeAux a g r c₁
              (merge_sorted_events le re, c₂)
            else ([], c)
        (events, (i, events) :: c') := rfl

/-- The memoized `compile_node` agrees with the pure per-node
denotation and preserves cache coherence, for any coherent starting
cache (hits return exactly what a fresh compilation would). -/
theorem compileNodeAux_correct {a : ArenaContext} :
    ∀ i (fuel : Nat) (c : Cache), i < fuel → CacheOK a c →
      (compileNodeAux a fuel i c).1 = incNode a i ∧
        CacheOK a (compileNodeAux a fuel i c).2 := by
  intro i
  induction i using Nat.strong_induction_on with
  | _ i ih =>
    intro fuel c hf hc
    obtain ⟨g, rfl⟩ : ∃ g, fuel = g + 1 := ⟨fuel - 1, by omega⟩
    cases hl : cacheLookup c i with
    | some v =>
      have hv : v = incNode a i := hc _ (cacheLookup_mem hl)
      simp only [compileNodeAux_succ, hl]
      exact ⟨hv, hc⟩
    | none =>
      cases hn : a.nodes.get? i with
      | none =>
        simp only [compileNodeAux_succ, hl, hn]
        refine ⟨(incNode_none hn).symm, ?_⟩
        intro p hp
        rcases List.mem_cons.1 hp with rfl | hp'
        · exact (incNode_none hn).symm
        · exact hc p hp'
      | some d =>
        cases d with
        | atomic ch dur p =>
          simp only [compileNodeAux_succ, hl, hn]
          refine ⟨(incNode_atomic hn).symm, ?_⟩
          intro q hq
          rcases List.mem_cons.1 hq with rfl | hq'
          · exact (incNode_atomic hn).symm
          · exact hc q hq'
        | sequential l r dur cs =>
          by_cases hlr : l < i ∧ r < i
          · obtain ⟨h1a, h1b⟩ := ih l hlr.1 g c (by omega) hc
            rcases hpl : compileNodeAux a g l c with ⟨le, c₁⟩
            rw [hpl] at h1a h1b
            have h1a' : le = incNode a l := h1a
            obtain ⟨h2a, h2b⟩ := ih r hlr.2 g c₁ (by omega) h1b
            rcases hpr : compileNodeAux a g r c₁ with ⟨re, c₂⟩
            rw [hpr] at h2a h2b
            have h2a' : re = incNode a r := h2a
            simp only [compileNodeAux_succ, hl, hn, if_pos hlr, hpl, hpr]
            have hev : le ++ re.map (shiftEvent (a.durationAt l)) = incNode a i := by
              rw [incNode_seq hn hlr.1 hlr.2, h1a', h2a']
            refine ⟨hev, ?_⟩
            intro q hq
            rcases List.mem_cons.1 hq with rfl | hq'
            · exact hev
            · exact h2b q hq'
          · simp only [compileNodeAux_succ, hl, hn, if_neg hlr]
            refine ⟨(incNode_seq_stuck hn hlr).symm, ?_⟩
            intro q hq
            rcases List.mem_cons.1 hq with rfl | hq'
            · exact (incNode_seq_stuck hn hlr).symm
            · exact hc q hq'
        | parallel l r dur cs =>
          by_cases hlr : l < i ∧ r < i
          · obtain ⟨h1a, h1b⟩ := ih l hlr.1 g c (by omega) hc
            rcases hpl : compileNodeAux a g l c with ⟨le, c₁⟩
            rw [hpl] at h1a h1b
            have h1a' : le = incNode a l := h1a
            obtain ⟨h2a, h2b⟩ := ih r hlr.2 g c₁ (by omega) h1b
            rcases hpr : compileNodeAux a g r c₁ with ⟨re, c₂⟩
            rw [hpr] at h2a h2b
            have h2a' : re = incNode a r := h2a
            simp only [compileNodeAux_succ, hl, hn, if_pos hlr, hpl, hpr]
            have hev : merge_sorted_events le re = incNode a i := by
              rw [incNode_par hn hlr.1 hlr.2, h1a', h2a']
            refine ⟨hev, ?_⟩
            intro q hq
            rcases List.mem_cons.1 hq with rfl | hq'
            · exact hev
            · exact h2b q hq'
          · simp only [compileNodeAux_succ, hl, hn, if_neg hlr]
            refine ⟨(incNode_par_stuck hn hlr).symm, ?_⟩
            intro q hq
            rcases List.mem_cons.1 hq with rfl | hq'
            · exact (incNode_par_stuck hn hlr).symm
            · exact hc q hq'

/-- Public incremental compile: output value and cache coherence. -/
theorem incCompile_eq {a : ArenaContext} {c : Cache} (hc : CacheOK a c) (root : Nat) :
    (incCompile a root c).1 = incNode a root ∧ CacheOK a (incCompile a root c).2 :=
  compileNodeAux_correct root (root + 1) c (by omega) hc

theorem compile_sorted (a : ArenaContext) (root : Nat) :
    List.Sorted timeLE (compile a root) :=
  List.sorted_insertionSort timeLE _

theorem compile_perm_dfs (a : ArenaContext) (root : Nat) :
    List.Perm (compile a root) (dfsEvents a root 0) :=
  List.perm_insertionSort timeLE _

theorem sorted_times {l : List FlatEvent} (h : List.Sorted timeLE l) :
    List.Sorted (· ≤ ·) (l.map FlatEvent.time) := by
  rw [List.Sorted, List.pairwise_map]
  exact h

theorem ceArena_built : Built ceArena :=
  Built.parallel
    (Built.atomic 1 7 3 []
      (Built.sequential
        (Built.atomic 0 5 2 [] (Built.atomic 0 5 1 [] Built.nil))
        (by decide) (by decide)))
    (by decide) (by decide)

theorem cacheOK_nil (a : ArenaContext) : CacheOK a [] :=
  fun p hp => absurd hp (List.not_mem_nil p)

/-- C1 (amended): for every built arena, root and coherent cache, the
incremental compiler's output is a permutation of the flat compiler's
output, both are sorted by time, and the two outputs carry identical
time sequences position by position (they can only differ in the
relative order of equal-time events). -/
theorem incremental_matches_flat_up_to_ties {a : ArenaContext} {root : Nat} {c : Cache}
    (hb : Built a) (hroot : root < a.nodes.length) (hc : CacheOK a c) :
    List.Perm (incCompile a root c).1 (compile a root) ∧
    List.Sorted timeLE (incCompile a root c).1 ∧
    List.Sorted timeLE (compile a root) ∧
    ((incCompile a root c).1).map FlatEvent.time = (compile a root).map FlatEvent.time := by
  have hinv := hb.arenaInv
  obtain ⟨heq, _⟩ := incCompile_eq hc root
  rw [heq]
  have hperm : List.Perm (incNode a root) (compile a root) :=
    (incNode_perm_dfs a root).trans (compile_perm_dfs a root).symm
  refine ⟨hperm, incNode_sorted hinv root, compile_sorted a root, ?_⟩
  exact List.eq_of_perm_of_sorted (hperm.map FlatEvent.time)
    (sorted_times (incNode_sorted hinv root)) (sorted_times (compile_sorted a root))

/-- C1 counterexample: on the concrete built arena `ceArena` with root
handle 4 the incremental compiler's output is NOT bit-identical to the
flat compiler's output (the two time-0 events appear in opposite
orders), refuting the claim as stated. -/
theorem incremental_not_bit_identical :
    Built ceArena ∧ 4 < ceArena.nodes.length ∧ CacheOK ceArena [] ∧
      (incCompile ceArena 4 []).1 ≠ compile ceArena 4 :=
  ⟨ceArena_built, by decide, cacheOK_nil ceArena, by decide⟩

/-- C1 witness: the amended equivalence instantiated on `ceArena`. -/
theorem incremental_matches_flat_up_to_ties_witness :
    Built ceArena ∧ 4 < ceArena.nodes.length ∧ CacheOK ceArena [] ∧
      (List.Perm (incCompile ceArena 4 []).1 (compile ceArena 4) ∧
       List.Sorted timeLE (incCompile ceArena 4 []).1 ∧
       List.Sorted timeLE (compile ceArena 4) ∧
       ((incCompile ceArena 4 []).1).map FlatEvent.time
         = (compile ceArena 4).map FlatEvent.time) :=
  ⟨ceArena_built, by decide, cacheOK_nil ceArena,
    incremental_matches_flat_up_to_ties ceArena_built (by decide) (cacheOK_nil ceArena)⟩

theorem mergeLoop_nil_left (b : List FlatEvent) : mergeLoop [] b = b := by
  cases b <;> rfl

theorem mergeLoop_nil_right (a : List FlatEvent) : mergeLoop a [] = a := by
  cases a <;> rfl

/-- C2 (amended): on sorted inputs the optimised merge equals the
standard stable two-pointer merge except in the boundary-tie residual
case, where it returns `B ++ A` — placing `B`'s equal-time boundary
events before `A`'s. -/
theorem merge_eq_two_pointer_unless_tie {A B : List FlatEvent}
    (hA : List.Sorted timeLE A) (hB : List.Sorted timeLE B) :
    (mergeBoundaryTie A B = false → merge_sorted_events A B = mergeLoop A B) ∧
    (mergeBoundaryTie A B = true → merge_sorted_events A B = B ++ A) := by
  constructor
  · intro hnot
    cases A with
    | nil => rw [merge_nil_left, mergeLoop_nil_left]
    | cons x xs =>
      cases B with
      | nil => rw [merge_nil_right, mergeLoop_nil_right]
      | cons y ys =>
        simp only [mergeBoundaryTie, Bool.and_eq_false_iff,
          decide_eq_false_iff_not, not_lt] at hnot
        simp only [merge_sorted_events]
        by_cases h1 : (xs.getLastD x).time ≤ y.time
        · rw [if_pos h1, mergeLoop, mergeAux_all_le]
          intro u hu v hv
          exact le_trans (sorted_le_last hA u hu) (le_trans h1 (sorted_head_le hB v hv))
        · rw [if_neg h1]
          by_cases h2 : (ys.getLastD y).time ≤ x.time
          · rw [if_pos h2]
            have hne : (ys.getLastD y).time ≠ x.time := by
              rcases hnot with hno1 | hno2
              · omega
              · exact hno2
            rw [mergeLoop, mergeAux_all_lt]
            · simp only [List.length_cons]
              omega
            · intro u hu v hv
              have hv' : v.time ≤ (ys.getLastD y).time := sorted_le_last hB v hv
              have hu' : x.time ≤ u.time := sorted_head_le hA u hu
              omega
          · rw [if_neg h2]
  · intro htie
    cases A with
    | nil => exact absurd htie (by simp [mergeBoundaryTie])
    | cons x xs =>
      cases B with
      | nil => exact absurd htie (by simp [mergeBoundaryTie])
      | cons y ys =>
        simp only [mergeBoundaryTie, Bool.and_eq_true, decide_eq_true_eq] at htie
        simp only [merge_sorted_events]
        rw [if_neg (by omega), if_pos (by omega)]

/-- C2 counterexample: two concrete sorted lists on which
`merge_sorted_events` differs from the stable two-pointer merge — the
`B`-before-`A` block-copy path moves `B`'s time-5 event ahead of `A`'s
time-5 event. -/
theorem merge_not_two_pointer :
    List.Sorted timeLE [(⟨5, 0, 1, []⟩ : FlatEvent)] ∧
    List.Sorted timeLE [(⟨3, 1, 2, []⟩ : FlatEvent), ⟨5, 1, 3, []⟩] ∧
    merge_sorted_events [(⟨5, 0, 1, []⟩ : FlatEvent)] [⟨3, 1, 2, []⟩, ⟨5, 1, 3, []⟩]
      ≠ mergeLoop [(⟨5, 0, 1, []⟩ : FlatEvent)] [⟨3, 1, 2, []⟩, ⟨5, 1, 3, []⟩] :=
  ⟨by decide, by decide, by decide⟩

/-- C2 witness: the amended statement instantiated on concrete sorted
lists, exercising both the equal case and the residual case. -/
theorem merge_eq_two_pointer_unless_tie_witness :
    (mergeBoundaryTie [(⟨0, 0, 1, []⟩ : FlatEvent), ⟨10, 0, 2, []⟩]
        [⟨20, 1, 3, []⟩, ⟨30, 1, 4, []⟩] = false →
      merge_sorted_events [(⟨0, 0, 1, []⟩ : FlatEvent), ⟨10, 0, 2, []⟩]
          [⟨20, 1, 3, []⟩, ⟨30, 1, 4, []⟩]
        = mergeLoop [(⟨0, 0, 1, []⟩ : FlatEvent), ⟨10, 0, 2, []⟩]
          [⟨20, 1, 3, []⟩, ⟨30, 1, 4, []⟩]) ∧
    (mergeBoundaryTie [(⟨5, 0, 1, []⟩ : FlatEvent)] [⟨3, 1, 2, []⟩, ⟨5, 1, 3, []⟩] = true →
      merge_sorted_events [(⟨5, 0, 1, []⟩ : FlatEvent)] [⟨3, 1, 2, []⟩, ⟨5, 1, 3, []⟩]
        = [(⟨3, 1, 2, []⟩ : FlatEvent), ⟨5, 1, 3, []⟩] ++ [⟨5, 0, 1, []⟩]) :=
  ⟨(merge_eq_two_pointer_unless_tie (by decide) (by decide)).1,
   (merge_eq_two_pointer_unless_tie (by decide) (by decide)).2⟩

/-- C3 (amended): every event of the flat compiler lies in
`[0, duration(root)]`, and the upper bound is strict whenever every
atomic leaf reachable from the root has a strictly positive
duration. -/
theorem compile_time_bounds {a : ArenaContext} {root : Nat}
    (hb : Built a) (hroot : root < a.nodes.length) :
    (∀ e ∈ compile a root, 0 ≤ e.time ∧ e.time ≤ a.durationAt root) ∧
    (allLeavesPos a root = true → ∀ e ∈ compile a root, e.time < a.durationAt root) := by
  have hinv := hb.arenaInv
  constructor
  · intro e he
    have hmem := (compile_perm_dfs a root).subset he
    have h2 := (dfsEvents_time_bound hinv root 0 e hmem).2
    exact ⟨Nat.zero_le _, by omega⟩
  · intro hpos e he
    have hmem := (compile_perm_dfs a root).subset he
    have h2 := dfsEvents_time_strict hinv root 0 hpos e hmem
    omega

/-- C3 counterexample: a validly built arena containing a
zero-duration atomic has an event at time 0 while the root duration is
0, violating the strict upper bound. -/
theorem compile_time_strict_fails :
    Built zeroArena ∧ 0 < zeroArena.nodes.length ∧
      ¬ (∀ e ∈ compile zeroArena 0, e.time < zeroArena.durationAt 0) :=
  ⟨Built.atomic 0 0 9 [] Built.nil, by decide, by decide⟩

/-- C3 witness: the amended bounds instantiated on `ceArena`, whose
leaf durations are all positive. -/
theorem compile_time_bounds_witness :
    Built ceArena ∧ 4 < ceArena.nodes.length ∧
      ((∀ e ∈ compile ceArena 4, 0 ≤ e.time ∧ e.time ≤ ceArena.durationAt 4) ∧
       (allLeavesPos ceArena 4 = true →
         ∀ e ∈ compile ceArena 4, e.time < ceArena.durationAt 4)) :=
  ⟨ceArena_built, by decide, compile_time_bounds ceArena_built (by decide)⟩

/-- C4: `parallel` fails exactly when the two channel lists share an
element; the fixed error message contains the word "disjoint"; and on
the error path the arena is returned unchanged (detection runs before
any node is appended). -/
theorem parallel_conflict_exact {a : ArenaContext} {l r : Nat}
    (hb : Built a) (hl : l < a.nodes.length) (hr : r < a.nodes.length) :
    ((a.parallel l r).2 = Except.error "Parallel composition requires disjoint channels"
      ↔ ∃ ch, ch ∈ a.channelsAt l ∧ ch ∈ a.channelsAt r) ∧
    ((∃ ch, ch ∈ a.channelsAt l ∧ ch ∈ a.channelsAt r) → (a.parallel l r).1 = a) ∧
    "Parallel composition requires disjoint channels"
      = "Parallel composition requires " ++ "disjoint" ++ " channels" := by
  have hinv := hb.arenaInv
  have hsl := (channels_ok hinv l hl).1.le_of_lt
  have hsr := (channels_ok hinv r hr).1.le_of_lt
  have hiff := has_intersection_iff hsl hsr
  cases hval : has_intersection (a.nodeAt l).channels_vec (a.nodeAt r).channels_vec with
  | true =>
    have hvalC : has_intersection (a.channelsAt l) (a.channelsAt r) = true := hval
    have hpar : a.parallel l r
        = (a, Except.error "Parallel composition requires disjoint channels") := by
      rw [ArenaContext.parallel, if_pos hval]
    rw [hpar]
    exact ⟨⟨fun _ => hiff.1 hvalC, fun _ => rfl⟩, fun _ => rfl, rfl⟩
  | false =>
    have hvalC : has_intersection (a.channelsAt l) (a.channelsAt r) = false := hval
    have hno : ¬ ∃ ch, ch ∈ a.channelsAt l ∧ ch ∈ a.channelsAt r := by
      intro hex
      rw [hiff.2 hex] at hvalC
      exact absurd hvalC (by simp)
    have hpar : a.parallel l r = (⟨a.nodes ++
        [MorphismData.parallel l r (max (a.nodeAt l).duration (a.nodeAt r).duration)
          (sortChannels ((a.nodeAt l).channels_vec ++ (a.nodeAt r).channels_vec))]⟩,
        Except.ok a.nodes.length) := by
      rw [ArenaContext.parallel, if_neg (by rw [hval]; simp)]
    rw [hpar]
    refine ⟨⟨fun habs => absurd habs (by simp), fun hex => absurd hex hno⟩,
      fun hex => absurd hex hno, rfl⟩

/-- C4 witness: instantiated on `ceArena` at the two conflicting
atomics on channel 0 (handles 0 and 1). -/
theorem parallel_conflict_exact_witness :
    Built ceArena ∧ 0 < ceArena.nodes.length ∧ 1 < ceArena.nodes.length ∧
      (((ceArena.parallel 0 1).2
          = Except.error "Parallel composition requires disjoint channels"
        ↔ ∃ ch, ch ∈ ceArena.channelsAt 0 ∧ ch ∈ ceArena.channelsAt 1) ∧
       ((∃ ch, ch ∈ ceArena.channelsAt 0 ∧ ch ∈ ceArena.channelsAt 1) →
         (ceArena.parallel 0 1).1 = ceArena) ∧
       "Parallel composition requires disjoint channels"
         = "Parallel composition requires " ++ "disjoint" ++ " channels") :=
  ⟨ceArena_built, by decide, by decide,
    parallel_conflict_exact ceArena_built (by decide) (by decide)⟩

/-- C5: in a built arena every node's channel list is strictly sorted
ascending (hence duplicate-free) and, as a set, equals the union of
the channel ids of the atomic leaves reachable from that node. -/
theorem channel_list_invariant {a : ArenaContext} (hb : Built a) :
    ∀ i < a.nodes.length,
      List.Sorted (· < ·) (a.channelsAt i) ∧
        (a.channelsAt i).toFinset = leafChannels a i :=
  fun i hi => channels_ok hb.arenaInv i hi

/-- C5 witness: instantiated on `ceArena` at the parallel root. -/
theorem channel_list_invariant_witness :
    Built ceArena ∧ 4 < ceArena.nodes.length ∧
      (List.Sorted (· < ·) (ceArena.channelsAt 4) ∧
        (ceArena.channelsAt 4).toFinset = leafChannels ceArena 4) :=
  ⟨ceArena_built, by decide, channel_list_invariant ceArena_built 4 (by decide)⟩

/-- C6: the flat compiler emits exactly one event per atomic
occurrence — the output length equals `leaf_count(root)`, with shared
subtrees counted once per occurrence in both. -/
theorem compile_length_eq_leaf_count {a : ArenaContext} {root : Nat}
    (hb : Built a) (hroot : root < a.nodes.length) :
    (compile a root).length = a.leaf_count root := by
  rw [(compile_perm_dfs a root).length_eq, dfsEvents_length a root 0]

/-- C6 witness: instantiated on `ceArena`. -/
theorem compile_length_eq_leaf_count_witness :
    Built ceArena ∧ 4 < ceArena.nodes.length ∧
      (compile ceArena 4).length = ceArena.leaf_count 4 :=
  ⟨ceArena_built, by decide, compile_length_eq_leaf_count ceArena_built (by decide)⟩

/-- C8: `extend` fails exactly when the channel ids differ; on failure
the path state (steps and total) is unchanged; on success the steps
become the old steps followed by the other path's steps and the total
duration becomes the sum of the two totals. -/
theorem extend_spec (p q : MorphismPath) :
    ((∃ msg, (p.extend q).2 = Except.error msg) ↔ p.channel_id ≠ q.channel_id) ∧
    (p.channel_id ≠ q.channel_id → (p.extend q).1 = p) ∧
    (p.channel_id = q.channel_id →
      (p.extend q).1.channel_id = p.channel_id ∧
      (p.extend q).1.steps = p.steps ++ q.steps ∧
      (p.extend q).1.total_duration = p.total_duration + q.total_duration) := by
  by_cases h : p.channel_id ≠ q.channel_id
  · have hpq : p.extend q = (p, Except.error ("Channel mismatch: "
        ++ toString p.channel_id ++ " vs " ++ toString q.channel_id)) := by
      rw [MorphismPath.extend, if_pos h]
    rw [hpq]
    exact ⟨⟨fun _ => h, fun _ => ⟨_, rfl⟩⟩, fun _ => rfl, fun heq => absurd heq h⟩
  · have hpq : p.extend q
        = (⟨p.channel_id, p.steps ++ q.steps, p.total_duration + q.total_duration⟩,
           Except.ok ()) := by
      rw [MorphismPath.extend, if_neg h]
    rw [hpq]
    refine ⟨⟨?_, fun hne => absurd hne h⟩, fun hne => absurd hne h,
      fun _ => ⟨rfl, rfl, rfl⟩⟩
    rintro ⟨msg, hm⟩
    exact absurd hm (by simp)

/-- C8 witness: a matching extension concatenates and adds; a
mismatched extension fails and leaves the path unchanged. -/
theorem extend_spec_witness :
    ((pathA.extend pathB).1.steps = pathA.steps ++ pathB.steps ∧
     (pathA.extend pathB).1.total_duration
       = pathA.total_duration + pathB.total_duration) ∧
    ((pathA.extend pathC).1 = pathA ∧
     (∃ msg, (pathA.extend pathC).2 = Except.error msg)) :=
  ⟨⟨((extend_spec pathA pathB).2.2 (by decide)).2.1,
    ((extend_spec pathA pathB).2.2 (by decide)).2.2⟩,
   ⟨(extend_spec pathA pathC).2.1 (by decide),
    (extend_spec pathA pathC).1.2 (by decide)⟩⟩

/-- C9: when `name` is not yet interned, `variable(name, h1)` followed
by `variable(name, h2)` returns the same id twice, the second call
leaves the whole arena (values, nodes and intern map) unchanged, and
the stored entry carries the type hint parsed from `h1` — the second
call's hint is ignored. -/
theorem variable_interning {p : ProgramArena} {name h₁ h₂ : String}
    (hfresh : lookupName p.var_names name = none) :
    ((p.mkVariable name h₁).1.mkVariable name h₂).2 = (p.mkVariable name h₁).2 ∧
    ((p.mkVariable name h₁).1.mkVariable name h₂).1 = (p.mkVariable name h₁).1 ∧
    (p.mkVariable name h₁).1.values.get? (p.mkVariable name h₁).2
      = some (ValueData.var name ((TypeHint.from_str h₁).getD TypeHint.int32)) := by
  have hlook : lookupName ((name, p.values.length) :: p.var_names) name
      = some p.values.length := by
    simp [lookupName]
  simp only [ProgramArena.mkVariable, hfresh, hlook]
  refine ⟨trivial, trivial, List.get?_concat_length _ _⟩

/-- C9 witness: on the empty arena, interning "x" with hint "int64"
twice (second hint "float32") returns id 0 twice, keeps the arena
unchanged and stores the Int64 hint. -/
theorem variable_interning_witness :
    lookupName (ProgramArena.new).var_names "x" = none ∧
    ((((ProgramArena.new.mkVariable "x" "int64").1.mkVariable "x" "float32").2
        = (ProgramArena.new.mkVariable "x" "int64").2) ∧
     (((ProgramArena.new.mkVariable "x" "int64").1.mkVariable "x" "float32").1
        = (ProgramArena.new.mkVariable "x" "int64").1) ∧
     (ProgramArena.new.mkVariable "x" "int64").1.values.get?
         (ProgramArena.new.mkVariable "x" "int64").2
       = some (ValueData.var "x" ((TypeHint.from_str "int64").getD TypeHint.int32))) :=
  ⟨rfl, variable_interning rfl⟩

/-- C10: the arena queries are total at the public interface:
out-of-range value ids yield `false` / `none` rather than failing, and
the typed literal extractors refuse literals of the other kind. -/
theorem queries_total (p : ProgramArena) (value_id : Nat) :
    (p.values.length ≤ value_id →
      p.is_literal value_id = false ∧ p.is_variable value_id = false ∧
      p.get_literal_int value_id = none ∧ p.get_literal_float value_id = none ∧
      p.get_variable_name value_id = none) ∧
    (∀ v, p.values.get? value_id = some (ValueData.literal v true) →
      p.get_literal_int value_id = none) ∧
    (∀ v, p.values.get? value_id = some (ValueData.literal v false) →
      p.get_literal_float value_id = none) := by
  refine ⟨?_, ?_, ?_⟩
  · intro h
    have hn : p.values.get? value_id = none := List.get?_eq_none.2 h
    refine ⟨?_, ?_, ?_, ?_, ?_⟩
    · rw [ProgramArena.is_literal, hn]; rfl
    · rw [ProgramArena.is_variable, hn]; rfl
    · rw [ProgramArena.get_literal_int, hn]; rfl
    · rw [ProgramArena.get_literal_float, hn]; rfl
    · rw [ProgramArena.get_variable_name, hn]
  · intro v hv
    rw [ProgramArena.get_literal_int, hv]
    rfl
  · intro v hv
    rw [ProgramArena.get_literal_float, hv]
    rfl

/-- C10 witness: out-of-range id 99 yields the defaults; the int
extractor refuses the float literal at id 1 and the float extractor
refuses the int literal at id 0. -/
theorem queries_total_witness :
    (qArena.is_literal 99 = false ∧ qArena.is_variable 99 = false ∧
     qArena.get_literal_int 99 = none ∧ qArena.get_literal_float 99 = none ∧
     qArena.get_variable_name 99 = none) ∧
    qArena.get_literal_int 1 = none ∧
    qArena.get_literal_float 0 = none :=
  ⟨(queries_total qArena 99).1 (by decide),
   (queries_total qArena 1).2.1 7 (by decide),
   (queries_total qArena 0).2.2 42 (by decide)⟩

theorem pDepthAux_succ (p : ProgramArena) (fuel i : Nat) :
    pDepthAux p (fuel + 1) i =
      match p.nodes.get? i with
      | some (NodeData.chain l r) =>
        if l < i ∧ r < i then 1 + max (pDepthAux p fuel l) (pDepthAux p fuel r) else 1
      | _ => 1 := rfl

theorem pDepthAux_congr (p : ProgramArena) :
    ∀ i (f₁ f₂ : Nat), i < f₁ → i < f₂ → pDepthAux p f₁ i = pDepthAux p f₂ i := by
  intro i
  induction i using Nat.strong_induction_on with
  | _ i ih =>
    intro f₁ f₂ h₁ h₂
    obtain ⟨g₁, rfl⟩ : ∃ g, f₁ = g + 1 := ⟨f₁ - 1, by omega⟩
    obtain ⟨g₂, rfl⟩ : ∃ g, f₂ = g + 1 := ⟨f₂ - 1, by omega⟩
    cases hn : p.nodes.get? i with
    | none => simp only [pDepthAux_succ, hn]
    | some d =>
      cases d with
      | chain l r =>
        by_cases hlr : l < i ∧ r < i
        · simp only [pDepthAux_succ, hn, if_pos hlr]
          rw [ih l hlr.1 g₁ g₂ (by omega) (by omega),
            ih r hlr.2 g₁ g₂ (by omega) (by omega)]
        · simp only [pDepthAux_succ, hn, if_neg hlr]
      | lift a b => simp only [pDepthAux_succ, hn]
      | delay a b => simp only [pDepthAux_succ, hn]
      | set a b => simp only [pDepthAux_succ, hn]
      | loopN a b => simp only [pDepthAux_succ, hn]
      | matchN a b c => simp only [pDepthAux_succ, hn]
      | apply a b => simp only [pDepthAux_succ, hn]
      | funcDef a b c => simp only [pDepthAux_succ, hn]
      | measure a b => simp only [pDepthAux_succ, hn]
      | identity => simp only [pDepthAux_succ, hn]

theorem pDepth_chain {p : ProgramArena} {i l r : Nat}
    (h : p.nodes.get? i = some (NodeData.chain l r)) (hl : l < i) (hr : r < i) :
    pDepth p i = 1 + max (pDepth p l) (pDepth p r) := by
  rw [pDepth]
  simp only [pDepthAux_succ, h, if_pos (And.intro hl hr)]
  rw [pDepthAux_congr p l i (l + 1) hl (by omega),
      pDepthAux_congr p r i (r + 1) hr (by omega)]
  rfl

theorem pDepthAux_mono {p p' : ProgramArena} {ext : List NodeData}
    (hn : p'.nodes = p.nodes ++ ext) :
    ∀ fuel i, i < p.nodes.length → pDepthAux p' fuel i = pDepthAux p fuel i := by
  intro fuel
  induction fuel with
  | zero => intro i _; rfl
  | succ f ih =>
    intro i hi
    have hget : p'.nodes.get? i = p.nodes.get? i := by
      rw [hn, List.get?_append hi]
    cases hg : p.nodes.get? i with
    | none => simp only [pDepthAux_succ, hget, hg]
    | some d =>
      cases d with
      | chain l r =>
        by_cases hlr : l < i ∧ r < i
        · simp only [pDepthAux_succ, hget, hg, if_pos hlr]
          rw [ih l (by omega), ih r (by omega)]
        · simp only [pDepthAux_succ, hget, hg, if_neg hlr]
      | lift a b => simp only [pDepthAux_succ, hget, hg]
      | delay a b => simp only [pDepthAux_succ, hget, hg]
      | set a b => simp only [pDepthAux_succ, hget, hg]
      | loopN a b => simp only [pDepthAux_succ, hget, hg]
      | matchN a b c => simp only [pDepthAux_succ, hget, hg]
      | apply a b => simp only [pDepthAux_succ, hget, hg]
      | funcDef a b c => simp only [pDepthAux_succ, hget, hg]
      | measure a b => simp only [pDepthAux_succ, hget, hg]
      | identity => simp only [pDepthAux_succ, hget, hg]

theorem pDepth_mono {p p' : ProgramArena} {ext : List NodeData}
    (hn : p'.nodes = p.nodes ++ ext) {i : Nat} (hi : i < p.nodes.length) :
    pDepth p' i = pDepth p i :=
  pDepthAux_mono hn (i + 1) i hi

theorem chainRound_nodes : ∀ (p : ProgramArena) (l : List Nat),
    ∃ ext, (chainRound p l).1.nodes = p.nodes ++ ext
  | _, [] => ⟨[], by simp [chainRound]⟩
  | _, [x] => ⟨[], by simp [chainRound]⟩
  | p, x :: y :: rest => by
    obtain ⟨ext, hext⟩ := chainRound_nodes (p.chain x y).1 rest
    refine ⟨[NodeData.chain x y] ++ ext, ?_⟩
    show (chainRound (p.chain x y).1 rest).1.nodes = _
    rw [hext]
    simp [ProgramArena.chain, List.append_assoc]

theorem chainRound_length : ∀ (p : ProgramArena) (l : List Nat),
    (chainRound p l).2.length = (l.length + 1) / 2
  | _, [] => rfl
  | _, [x] => by simp [chainRound]
  | p, x :: y :: rest => by
    show ((chainRound (p.chain x y).1 rest).2.length + 1 = _)
    rw [chainRound_length (p.chain x y).1 rest]
    simp only [List.length_cons]
    omega

theorem chainRound_depth : ∀ (p : ProgramArena) (l : List Nat) (d : Nat),
    (∀ x ∈ l, x < p.nodes.length ∧ pDepth p x ≤ d) →
    ∀ y ∈ (chainRound p l).2,
      y < (chainRound p l).1.nodes.length ∧ pDepth (chainRound p l).1 y ≤ d + 1
  | _, [], _, _ => by intro y hy; exact absurd hy (List.not_mem_nil y)
  | p, [x], d, hmem => by
    intro y hy
    rcases List.mem_singleton.1 hy with rfl
    obtain ⟨h1, h2⟩ := hmem y (List.mem_singleton.2 rfl)
    refine ⟨h1, ?_⟩
    show pDepth p y ≤ d + 1
    omega
  | p, x :: y :: rest, d, hmem => by
    intro z hz
    obtain ⟨hx1, hx2⟩ := hmem x (List.mem_cons_self _ _)
    obtain ⟨hy1, hy2⟩ := hmem y (List.mem_cons_of_mem _ (List.mem_cons_self _ _))
    have hp₁nodes : (p.chain x y).1.nodes = p.nodes ++ [NodeData.chain x y] := rfl
    have hrest : ∀ u ∈ rest, u < (p.chain x y).1.nodes.length ∧
        pDepth (p.chain x y).1 u ≤ d := by
      intro u hu
      obtain ⟨hu1, hu2⟩ := hmem u (List.mem_cons_of_mem _ (List.mem_cons_of_mem _ hu))
      refine ⟨?_, ?_⟩
      · rw [hp₁nodes]
        simp only [List.length_append, List.length_cons, List.length_nil]
        omega
      · rw [pDepth_mono hp₁nodes hu1]
        exact hu2
    obtain ⟨ext, hext⟩ := chainRound_nodes (p.chain x y).1 rest
    have hIH := chainRound_depth (p.chain x y).1 rest d hrest
    rcases List.mem_cons.1 hz with rfl | hz'
    ·  -- the freshly created chain node
      have hc : (p.chain x y).2 = p.nodes.length := rfl
      have hclt : (p.chain x y).2 < (p.chain x y).1.nodes.length := by
        rw [hc, hp₁nodes]
        simp only [List.length_append, List.length_cons, List.length_nil]
        omega
      have hget : (p.chain x y).1.nodes.get? (p.chain x y).2
          = some (NodeData.chain x y) := by
        rw [hc, hp₁nodes]
        exact List.get?_concat_length _ _
      have hdepth₁ : pDepth (p.chain x y).1 (p.chain x y).2
          = 1 + max (pDepth (p.chain x y).1 x) (pDepth (p.chain x y).1 y) :=
        pDepth_chain hget (by rw [hc]; omega) (by rw [hc]; omega)
      constructor
      · show (p.chain x y).2 < (chainRound (p.chain x y).1 rest).1.nodes.length
        rw [hext]
        simp only [List.length_append]
        omega
      · show pDepth (chainRound (p.chain x y).1 rest).1 (p.chain x y).2 ≤ d + 1
        rw [pDepth_mono hext hclt, hdepth₁,
          pDepth_mono hp₁nodes hx1, pDepth_mono hp₁nodes hy1]
        omega
    · exact hIH z hz'

theorem chainLoopAux_spec :
    ∀ (n : Nat), ∀ (fuel : Nat) (p : ProgramArena) (cur : List Nat) (d : Nat),
    cur.length = n → 1 ≤ n → n ≤ fuel →
    (∀ x ∈ cur, x < p.nodes.length ∧ pDepth p x ≤ d) →
    ∃ root, (chainLoopAux fuel p cur).2 = [root] ∧
      root < (chainLoopAux fuel p cur).1.nodes.length ∧
      pDepth (chainLoopAux fuel p cur).1 root ≤ d + Nat.clog 2 n := by
  intro n
  induction n using Nat.strong_induction_on with
  | _ n ihn =>
    intro fuel p cur d hlen h1 hfuel hmem
    obtain ⟨g, rfl⟩ : ∃ g, fuel = g + 1 := ⟨fuel - 1, by omega⟩
    by_cases hle : cur.length ≤ 1
    · have hn1 : n = 1 := by omega
      obtain ⟨root, rfl⟩ := List.length_eq_one.1 (by omega : cur.length = 1)
      have hstep : chainLoopAux (g + 1) p [root] = (p, [root]) := by
        rw [chainLoopAux, if_pos (by simp)]
      rw [hstep]
      obtain ⟨hr1, hr2⟩ := hmem root (List.mem_singleton.2 rfl)
      refine ⟨root, rfl, hr1, ?_⟩
      show pDepth p root ≤ d + Nat.clog 2 n
      rw [hn1, Nat.clog_one_right]
      omega
    · have h2 : 2 ≤ n := by omega
      have hstep : chainLoopAux (g + 1) p cur
          = chainLoopAux g (chainRound p cur).1 (chainRound p cur).2 := by
        rw [chainLoopAux, if_neg hle]
      have hlen' : (chainRound p cur).2.length = (n + 1) / 2 := by
        rw [chainRound_length, hlen]
      have hIH := ihn ((n + 1) / 2) (by omega) g (chainRound p cur).1
        (chainRound p cur).2 (d + 1) hlen' (by omega) (by omega)
        (chainRound_depth p cur d hmem)
      obtain ⟨root, hroot, hlt, hdep⟩ := hIH
      rw [hstep]
      refine ⟨root, hroot, hlt, ?_⟩
      have hclog : Nat.clog 2 n = Nat.clog 2 ((n + 1) / 2) + 1 := by
        rw [Nat.clog_of_two_le (by omega) h2,
          show n + 2 - 1 = n + 1 from rfl]
      omega

theorem maxDepthAux_mono {a a' : ArenaContext} {ext : List MorphismData}
    (hn : a'.nodes = a.nodes ++ ext) :
    ∀ fuel i, i < a.nodes.length → maxDepthAux a' fuel i = maxDepthAux a fuel i := by
  intro fuel
  induction fuel with
  | zero => intro i _; rfl
  | succ f ih =>
    intro i hi
    have hget : a'.nodes.get? i = a.nodes.get? i := by
      rw [hn, List.get?_append hi]
    cases hg : a.nodes.get? i with
    | none => simp only [maxDepthAux_succ, hget, hg]
    | some d =>
      cases d with
      | atomic ch dur p => simp only [maxDepthAux_succ, hget, hg]
      | sequential l r dur cs =>
        by_cases hlr : l < i ∧ r < i
        · simp only [maxDepthAux_succ, hget, hg, if_pos hlr]
          rw [ih l (by omega), ih r (by omega)]
        · simp only [maxDepthAux_succ, hget, hg, if_neg hlr]
      | parallel l r dur cs =>
        by_cases hlr : l < i ∧ r < i
        · simp only [maxDepthAux_succ, hget, hg, if_pos hlr]
          rw [ih l (by omega), ih r (by omega)]
        · simp only [maxDepthAux_succ, hget, hg, if_neg hlr]

theorem max_depth_mono {a a' : ArenaContext} {ext : List MorphismData}
    (hn : a'.nodes = a.nodes ++ ext) {i : Nat} (hi : i < a.nodes.length) :
    a'.max_depth i = a.max_depth i :=
  maxDepthAux_mono hn (i + 1) i hi

theorem seqRound_nodes : ∀ (a : ArenaContext) (l : List Nat),
    ∃ ext, (seqRound a l).1.nodes = a.nodes ++ ext
  | _, [] => ⟨[], by simp [seqRound]⟩
  | _, [x] => ⟨[], by simp [seqRound]⟩
  | a, x :: y :: rest => by
    obtain ⟨ext, hext⟩ := seqRound_nodes (a.sequential x y).1 rest
    refine ⟨[MorphismData.sequential x y
        ((a.nodeAt x).duration + (a.nodeAt y).duration)
        (dedupAdj (sortChannels ((a.nodeAt x).channels_vec ++ (a.nodeAt y).channels_vec)))]
        ++ ext, ?_⟩
    show (seqRound (a.sequential x y).1 rest).1.nodes = _
    rw [hext]
    rw [show (a.sequential x y).1.nodes = a.nodes ++
        [MorphismData.sequential x y
          ((a.nodeAt x).duration + (a.nodeAt y).duration)
          (dedupAdj (sortChannels ((a.nodeAt x).channels_vec ++ (a.nodeAt y).channels_vec)))]
        from rfl,
      List.append_assoc]

theorem seqRound_length : ∀ (a : ArenaContext) (l : List Nat),
    (seqRound a l).2.length = (l.length + 1) / 2
  | _, [] => rfl
  | _, [x] => by simp [seqRound]
  | a, x :: y :: rest => by
    show ((seqRound (a.sequential x y).1 rest).2.length + 1 = _)
    rw [seqRound_length (a.sequential x y).1 rest]
    simp only [List.length_cons]
    omega

theorem seqRound_depth : ∀ (a : ArenaContext) (l : List Nat) (d : Nat),
    (∀ x ∈ l, x < a.nodes.length ∧ a.max_depth x ≤ d) →
    ∀ y ∈ (seqRound a l).2,
      y < (seqRound a l).1.nodes.length ∧ (seqRound a l).1.max_depth y ≤ d + 1
  | _, [], _, _ => by intro y hy; exact absurd hy (List.not_mem_nil y)
  | a, [x], d, hmem => by
    intro y hy
    rcases List.mem_singleton.1 hy with rfl
    obtain ⟨h1, h2⟩ := hmem y (List.mem_singleton.2 rfl)
    refine ⟨h1, ?_⟩
    show a.max_depth y ≤ d + 1
    omega
  | a, x :: y :: rest, d, hmem => by
    intro z hz
    obtain ⟨hx1, hx2⟩ := hmem x (List.mem_cons_self _ _)
    obtain ⟨hy1, hy2⟩ := hmem y (List.mem_cons_of_mem _ (List.mem_cons_self _ _))
    have ha₁nodes : (a.sequential x y).1.nodes = a.nodes ++
        [MorphismData.sequential x y
          ((a.nodeAt x).duration + (a.nodeAt y).duration)
          (dedupAdj (sortChannels ((a.nodeAt x).channels_vec ++ (a.nodeAt y).channels_vec)))]
        := rfl
    have hrest : ∀ u ∈ rest, u < (a.sequential x y).1.nodes.length ∧
        (a.sequential x y).1.max_depth u ≤ d := by
      intro u hu
      obtain ⟨hu1, hu2⟩ := hmem u (List.mem_cons_of_mem _ (List.mem_cons_of_mem _ hu))
      refine ⟨?_, ?_⟩
      · rw [ha₁nodes]
        simp only [List.length_append, List.length_cons, List.length_nil]
        omega
      · rw [max_depth_mono ha₁nodes hu1]
        exact hu2
    obtain ⟨ext, hext⟩ := seqRound_nodes (a.sequential x y).1 rest
    have hIH := seqRound_depth (a.sequential x y).1 rest d hrest
    rcases List.mem_cons.1 hz with rfl | hz'
    · have hc : (a.sequential x y).2 = a.nodes.length := rfl
      have hclt : (a.sequential x y).2 < (a.sequential x y).1.nodes.length := by
        rw [hc, ha₁nodes]
        simp only [List.length_append, List.length_cons, List.length_nil]
        omega
      have hget : (a.sequential x y).1.nodes.get? (a.sequential x y).2
          = some (MorphismData.sequential x y
            ((a.nodeAt x).duration + (a.nodeAt y).duration)
            (dedupAdj (sortChannels ((a.nodeAt x).channels_vec ++ (a.nodeAt y).channels_vec)))) := by
        rw [hc, ha₁nodes]
        exact List.get?_concat_length _ _
      have hdepth₁ : (a.sequential x y).1.max_depth (a.sequential x y).2
          = 1 + max ((a.sequential x y).1.max_depth x) ((a.sequential x y).1.max_depth y) :=
        max_depth_seq hget (by rw [hc]; omega) (by rw [hc]; omega)
      constructor
      · show (a.sequential x y).2 < (seqRound (a.sequential x y).1 rest).1.nodes.length
        rw [hext]
        simp only [List.length_append]
        omega
      · show (seqRound (a.sequential x y).1 rest).1.max_depth (a.sequential x y).2 ≤ d + 1
        rw [max_depth_mono hext hclt, hdepth₁,
          max_depth_mono ha₁nodes hx1, max_depth_mono ha₁nodes hy1]
        omega
    · exact hIH z hz'

theorem seqLoopAux_spec :
    ∀ (n : Nat), ∀ (fuel : Nat) (a : ArenaContext) (cur : List Nat) (d : Nat),
    cur.length = n → 1 ≤ n → n ≤ fuel →
    (∀ x ∈ cur, x < a.nodes.length ∧ a.max_depth x ≤ d) →
    ∃ root, (seqLoopAux fuel a cur).2 = [root] ∧
      root < (seqLoopAux fuel a cur).1.nodes.length ∧
      (seqLoopAux fuel a cur).1.max_depth root ≤ d + Nat.clog 2 n := by
  intro n
  induction n using Nat.strong_induction_on with
  | _ n ihn =>
    intro fuel a cur d hlen h1 hfuel hmem
    obtain ⟨g, rfl⟩ : ∃ g, fuel = g + 1 := ⟨fuel - 1, by omega⟩
    by_cases hle : cur.length ≤ 1
    · have hn1 : n = 1 := by omega
      obtain ⟨root, rfl⟩ := List.length_eq_one.1 (by omega : cur.length = 1)
      have hstep : seqLoopAux (g + 1) a [root] = (a, [root]) := by
        rw [seqLoopAux, if_pos (by simp)]
      rw [hstep]
      obtain ⟨hr1, hr2⟩ := hmem root (List.mem_singleton.2 rfl)
      refine ⟨root, rfl, hr1, ?_⟩
      show a.max_depth root ≤ d + Nat.clog 2 n
      rw [hn1, Nat.clog_one_right]
      omega
    · have h2 : 2 ≤ n := by omega
      have hstep : seqLoopAux (g + 1) a cur
          = seqLoopAux g (seqRound a cur).1 (seqRound a cur).2 := by
        rw [seqLoopAux, if_neg hle]
      have hlen' : (seqRound a cur).2.length = (n + 1) / 2 := by
        rw [seqRound_length, hlen]
      have hIH := ihn ((n + 1) / 2) (by omega) g (seqRound a cur).1
        (seqRound a cur).2 (d + 1) hlen' (by omega) (by omega)
        (seqRound_depth a cur d hmem)
      obtain ⟨root, hroot, hlt, hdep⟩ := hIH
      rw [hstep]
      refine ⟨root, hroot, hlt, ?_⟩
      have hclog : Nat.clog 2 n = Nat.clog 2 ((n + 1) / 2) + 1 := by
        rw [Nat.clog_of_two_le (by omega) h2,
          show n + 2 - 1 = n + 1 from rfl]
      omega

/-- C7: balanced batch composition.  `ProgramArena::chain_sequence`
returns nothing on an empty list and the single element unchanged on a
singleton, and for N ≥ 1 leaf inputs builds a chain tree of depth at
most ⌈log₂ N⌉ + 1; the spec-modelled `ArenaContext::compose_sequence`
(the same pairwise-halving scheme, combining with `sequential`) does
the same with `max_depth`. -/
theorem balanced_chain_spec :
    (∀ p : ProgramArena, p.chain_sequence [] = (p, none)) ∧
    (∀ (p : ProgramArena) (x : Nat), p.chain_sequence [x] = (p, some x)) ∧
    (∀ (p : ProgramArena) (ns : List Nat), 1 ≤ ns.length →
      (∀ x ∈ ns, x < p.nodes.length ∧ pDepth p x ≤ 1) →
      ∃ p' root, p.chain_sequence ns = (p', some root) ∧
        pDepth p' root ≤ Nat.clog 2 ns.length + 1) ∧
    (∀ a : ArenaContext, a.compose_sequence [] = (a, none)) ∧
    (∀ (a : ArenaContext) (x : Nat), a.compose_sequence [x] = (a, some x)) ∧
    (∀ (a : ArenaContext) (ns : List Nat), 1 ≤ ns.length →
      (∀ x ∈ ns, x < a.nodes.length ∧ a.max_depth x ≤ 1) →
      ∃ a' root, a.compose_sequence ns = (a', some root) ∧
        a'.max_depth root ≤ Nat.clog 2 ns.length + 1) := by
  refine ⟨fun p => rfl, fun p x => rfl, ?_, fun a => rfl, fun a x => rfl, ?_⟩
  · intro p ns h1 hmem
    cases ns with
    | nil => exact absurd h1 (by simp)
    | cons x tail =>
      cases tail with
      | nil =>
        refine ⟨p, x, rfl, ?_⟩
        have hd := (hmem x (List.mem_singleton.2 rfl)).2
        have hc : Nat.clog 2 ([x] : List Nat).length = 0 := by
          rw [show ([x] : List Nat).length = 1 from rfl, Nat.clog_one_right]
        omega
      | cons y rest =>
        obtain ⟨root, hroot, hlt, hdep⟩ := chainLoopAux_spec
          (x :: y :: rest).length (x :: y :: rest).length p (x :: y :: rest) 1
          rfl (by simp only [List.length_cons]; omega) le_rfl hmem
        refine ⟨(chainLoopAux (x :: y :: rest).length p (x :: y :: rest)).1, root, ?_,
          by omega⟩
        have hcs : p.chain_sequence (x :: y :: rest)
            = ((chainLoopAux (x :: y :: rest).length p (x :: y :: rest)).1,
               (chainLoopAux (x :: y :: rest).length p (x :: y :: rest)).2.head?) := rfl
        rw [hcs, hroot]
        rfl
  · intro a ns h1 hmem
    cases ns with
    | nil => exact absurd h1 (by simp)
    | cons x tail =>
      cases tail with
      | nil =>
        refine ⟨a, x, rfl, ?_⟩
        have hd := (hmem x (List.mem_singleton.2 rfl)).2
        have hc : Nat.clog 2 ([x] : List Nat).length = 0 := by
          rw [show ([x] : List Nat).length = 1 from rfl, Nat.clog_one_right]
        omega
      | cons y rest =>
        obtain ⟨root, hroot, hlt, hdep⟩ := seqLoopAux_spec
          (x :: y :: rest).length (x :: y :: rest).length a (x :: y :: rest) 1
          rfl (by simp only [List.length_cons]; omega) le_rfl hmem
        refine ⟨(seqLoopAux (x :: y :: rest).length a (x :: y :: rest)).1, root, ?_,
          by omega⟩
        have hcs : a.compose_sequence (x :: y :: rest)
            = ((seqLoopAux (x :: y :: rest).length a (x :: y :: rest)).1,
               (seqLoopAux (x :: y :: rest).length a (x :: y :: rest)).2.head?) := rfl
        rw [hcs, hroot]
        rfl

/-- C7 witness: the empty, singleton and three-leaf cases on concrete
arenas (depth bound ⌈log₂ 3⌉ + 1), on both arenas. -/
theorem balanced_chain_spec_witness :
    wpArena.chain_sequence [] = (wpArena, none) ∧
    wpArena.chain_sequence [0] = (wpArena, some 0) ∧
    (∃ p' root, wpArena.chain_sequence [0, 1, 2] = (p', some root) ∧
      pDepth p' root ≤ Nat.clog 2 ([0, 1, 2] : List Nat).length + 1) ∧
    wmArena.compose_sequence [] = (wmArena, none) ∧
    wmArena.compose_sequence [0] = (wmArena, some 0) ∧
    (∃ a' root, wmArena.compose_sequence [0, 1, 2] = (a', some root) ∧
      a'.max_depth root ≤ Nat.clog 2 ([0, 1, 2] : List Nat).length + 1) :=
  ⟨balanced_chain_spec.1 wpArena,
   balanced_chain_spec.2.1 wpArena 0,
   balanced_chain_spec.2.2.1 wpArena [0, 1, 2] (by decide) (by decide),
   balanced_chain_spec.2.2.2.1 wmArena,
   balanced_chain_spec.2.2.2.2.1 wmArena 0,
   balanced_chain_spec.2.2.2.2.2 wmArena [0, 1, 2] (by decide) (by decide)⟩

end CatSeq

